import Mathlib

/-!
Shallow embedding of the `unlayer` dependency-injection container
(`src/container.ts`, `src/layer.ts`, `src/tag.ts`, `src/types.ts`).

JavaScript `Map`s are modelled as association lists whose `set` updates the
first matching key in place (preserving insertion order, as JS `Map.set`
does) and appends otherwise.  JS `Set`s of strings are modelled as lists
with insert-if-absent-append, matching insertion-order iteration.

Caller-supplied factory closures are opaque to the engine; the engine only
invokes them and stores/returns their results.  To make the observables of
the specification (object identity of instances, and build side effects)
expressible, a factory invocation is modelled as allocating a fresh object
identity (`Value.obj` stamped with a monotone counter) and appending a
`BuildEvent` recording the tag name, the fresh id and the argument list to
an instrumentation log.  Dispose hooks are likewise opaque: `dispose`
returns the list of hook invocations (tag name and instance) it performs.

The two recursive algorithms of the source (`topologicalSort`'s DFS and
`createService`'s resolution) recurse along the dependency graph, which is
not structurally decreasing, so they are written with an explicit fuel
parameter; theorems below prove that the concrete fuel chosen by
`topologicalSort` and `get` is never exhausted.
-/

namespace Unlayer

/-- Lookup in an association list modelling `Map.get`. -/
def getA {α : Type} : List (String × α) → String → Option α
  | [], _ => none
  | (k, v) :: t, n => if k = n then some v else getA t n

/-- Update-or-append modelling `Map.set`: the first matching key is updated
in place (JS `Map.set` keeps the original insertion position), otherwise the
pair is appended. -/
def setA {α : Type} : List (String × α) → String → α → List (String × α)
  | [], n, v => [(n, v)]
  | (k, w) :: t, n, v => if k = n then (n, v) :: t else (k, w) :: setA t n v

/-- Keys of an association list, in insertion order (`Map.keys`). -/
def keysA {α : Type} (l : List (String × α)) : List String := l.map (·.1)

/-- Insert a string into a list if absent, appending at the end; models
`Set.add` for JS string sets. -/
def addName (l : List String) (n : String) : List String :=
  if n ∈ l then l else l ++ [n]

theorem getA_setA_self {α : Type} (l : List (String × α)) (n : String) (v : α) :
    getA (setA l n v) n = some v := by
  induction l with
  | nil => simp [setA, getA]
  | cons p t ih =>
    obtain ⟨k, w⟩ := p
    by_cases h : k = n <;> simp [setA, getA, h, ih]

theorem getA_setA_ne {α : Type} (l : List (String × α)) (n m : String) (v : α)
    (h : m ≠ n) : getA (setA l n v) m = getA l m := by
  induction l with
  | nil =>
    simp only [setA, getA]
    rw [if_neg fun h' => h h'.symm]
  | cons p t ih =>
    obtain ⟨k, w⟩ := p
    by_cases hk : k = n
    · subst hk
      simp only [setA, if_pos rfl, getA]
      rw [if_neg fun h' => h h'.symm, if_neg fun h' => h h'.symm]
    · simp only [setA, if_neg hk, getA]
      by_cases hkm : k = m
      · simp [hkm]
      · simp [hkm, ih]

theorem getA_isSome_mem_keysA {α : Type} (l : List (String × α)) (n : String) :
    (getA l n).isSome ↔ n ∈ keysA l := by
  induction l with
  | nil => simp [getA, keysA]
  | cons p t ih =>
    obtain ⟨k, w⟩ := p
    by_cases h : k = n
    · subst h
      simp [getA, keysA]
    · simp only [getA, if_neg h, keysA, List.map_cons, List.mem_cons, ih]
      constructor
      · intro hm
        exact Or.inr hm
      · rintro (rfl | hm)
        · exact absurd rfl h
        · exact hm

theorem mem_keysA_setA {α : Type} (l : List (String × α)) (n x : String) (v : α) :
    x ∈ keysA (setA l n v) ↔ x ∈ keysA l ∨ x = n := by
  induction l with
  | nil => simp [setA, keysA]
  | cons p t ih =>
    obtain ⟨k, w⟩ := p
    by_cases hk : k = n
    · subst hk
      simp only [setA, if_pos rfl, keysA, List.map_cons, List.mem_cons, reduceIte]
      tauto
    · simp only [setA, if_neg hk, keysA, List.map_cons, List.mem_cons]
      simp only [keysA] at ih
      rw [ih]
      tauto

theorem keysA_setA_nodup {α : Type} (l : List (String × α)) (n : String) (v : α)
    (h : (keysA l).Nodup) : (keysA (setA l n v)).Nodup := by
  induction l with
  | nil => simp [setA, keysA]
  | cons p t ih =>
    obtain ⟨k, w⟩ := p
    simp only [keysA, List.map_cons, List.nodup_cons] at h
    by_cases hk : k = n
    · subst hk
      simpa [setA, keysA, List.nodup_cons] using h
    · simp only [setA, if_neg hk, keysA, List.map_cons, List.nodup_cons]
      refine ⟨?_, ih h.2⟩
      intro hmem
      rcases (mem_keysA_setA t n k v).mp hmem with hm | rfl
      · exact h.1 hm
      · exact hk rfl

theorem mem_addName (l : List String) (n x : String) :
    x ∈ addName l n ↔ x ∈ l ∨ x = n := by
  by_cases h : n ∈ l
  · simp only [addName, if_pos h]
    constructor
    · exact Or.inl
    · rintro (hx | rfl)
      · exact hx
      · exact h
  · simp [addName, if_neg h]

instance {ε α : Type} [DecidableEq ε] [DecidableEq α] : DecidableEq (Except ε α) :=
  fun x y =>
    match x, y with
    | .ok a, .ok b =>
      if h : a = b then .isTrue (by rw [h])
      else .isFalse (by intro hc; cases hc; exact h rfl)
    | .error a, .error b =>
      if h : a = b then .isTrue (by rw [h])
      else .isFalse (by intro hc; cases hc; exact h rfl)
    | .ok _, .error _ => .isFalse (by intro hc; cases hc)
    | .error _, .ok _ => .isFalse (by intro hc; cases hc)

/-- Service lifecycle scope (`types.ts`). -/
inductive Scope where
  | singleton
  | transient
deriving DecidableEq, Repr

/-- A service tag; the engine only uses its `name` (`tag.ts`, `types.ts`).
The type brand is erased in this untyped model. -/
structure Tag where
  name : String
deriving DecidableEq, Repr

/-- Options for `Layer.factory` (`types.ts`).  The dispose hook is opaque to
the engine; only its presence is observable, so it is modelled as a flag. -/
structure LayerOptions where
  scope : Option Scope
  dispose : Bool
deriving DecidableEq, Repr

/-- Options for `Layer.merge` (`types.ts`). -/
structure MergeOptions where
  allowDuplicates : Option Bool
deriving DecidableEq, Repr

/-- A layer tree (`layer.ts` `LayerImpl`): value-backed, factory-backed, or a
merge of layers.  Caller values are opaque; they are modelled as naturals.
The factory closure itself is opaque and is modelled by the instrumented
allocation semantics in `createService`. -/
inductive Layer where
  | value (tag : Tag) (v : Nat)
  | factory (tag : Tag) (dependencies : List Tag) (options : Option LayerOptions)
  | merged (layers : List Layer) (mergeOptions : Option MergeOptions)

/-- A non-merged layer, as stored in the graph's `layerMap`; `buildGraph`
only ever stores value or factory layers there (see the comment in
`createService` in `container.ts`: "impl must be factory due to buildGraph
filtering"). -/
inductive ServiceLayer where
  | value (tag : Tag) (v : Nat)
  | factory (tag : Tag) (dependencies : List Tag) (options : Option LayerOptions)
deriving DecidableEq, Repr

/-- The flattened dependency graph built by `buildGraph` (`container.ts`). -/
structure Graph where
  nodes : List (String × Tag)
  edges : List (String × List String)
  layerMap : List (String × ServiceLayer)
  tagCounts : List (String × Nat)
deriving DecidableEq, Repr

/-- Dependency names of a factory layer, deduplicated with first-occurrence
order preserved (`buildGraph` collects them into a JS `Set`). -/
def depNames (deps : List Tag) : List String :=
  deps.foldl (fun acc d => addName acc d.name) []

/-- Empty graph accumulator. -/
def emptyGraph : Graph := ⟨[], [], [], []⟩

/-- Increment the per-tag occurrence counter (`incrementTagCount`). -/
def incrementTagCount (tagCounts : List (String × Nat)) (tagName : String) :
    List (String × Nat) :=
  setA tagCounts tagName (((getA tagCounts tagName).getD 0) + 1)

/-- Register one non-merged layer in the graph: the body of the value and
factory branches of `collectLayers` in `buildGraph`.  A factory's edge set
is only written when its dependency list is nonempty (the `if
(dependencies.length > 0)` guard in the source). -/
def registerLeaf (g : Graph) : ServiceLayer → Graph
  | .value tag v =>
    { g with
      nodes := setA g.nodes tag.name tag,
      layerMap := setA g.layerMap tag.name (.value tag v),
      tagCounts := incrementTagCount g.tagCounts tag.name }
  | .factory tag dependencies options =>
    if dependencies.length > 0 then
      { g with
        nodes := setA g.nodes tag.name tag,
        layerMap := setA g.layerMap tag.name (.factory tag dependencies options),
        tagCounts := incrementTagCount g.tagCounts tag.name,
        edges := setA g.edges tag.name (depNames dependencies) }
    else
      { g with
        nodes := setA g.nodes tag.name tag,
        layerMap := setA g.layerMap tag.name (.factory tag dependencies options),
        tagCounts := incrementTagCount g.tagCounts tag.name }

mutual

/-- The recursive walk of `buildGraph.collectLayers`. -/
def collectLayers (g : Graph) : Layer → Graph
  | .merged layers _ => collectList g layers
  | .value tag v => registerLeaf g (.value tag v)
  | .factory tag dependencies options =>
    registerLeaf g (.factory tag dependencies options)

/-- Walk of a list of child layers, in order. -/
def collectList (g : Graph) : List Layer → Graph
  | [] => g
  | l :: ls => collectList (collectLayers g l) ls

end

/-- `buildGraph` from `container.ts`. -/
def buildGraph (layer : Layer) : Graph := collectLayers emptyGraph layer

mutual

/-- The value/factory leaves of a layer tree in the order `collectLayers`
visits them. -/
def leaves : Layer → List ServiceLayer
  | .merged layers _ => leavesList layers
  | .value tag v => [.value tag v]
  | .factory tag dependencies options => [.factory tag dependencies options]

/-- Leaves of a list of layers, in order. -/
def leavesList : List Layer → List ServiceLayer
  | [] => []
  | l :: ls => leaves l ++ leavesList ls

end

/-- Dependency-name list recorded in `edges` for a node, empty when absent
(`graph.edges.get(nodeName)` with the `if (deps)` guard). -/
def depsOfG (g : Graph) (n : String) : List String :=
  (getA g.edges n).getD []

/-- Edge relation of the recorded graph: `b` is a recorded dependency name
of `a`. -/
def edgeRel (g : Graph) (a b : String) : Prop := b ∈ depsOfG g a

instance (g : Graph) (a b : String) : Decidable (edgeRel g a b) := by
  unfold edgeRel; infer_instance

/-- The recorded graph has no nonempty cycle. -/
def AcyclicE (g : Graph) : Prop := ∀ n, ¬ Relation.TransGen (edgeRel g) n n

/-- Declared-dependency relation used by the resolver: the layer currently
registered for `a` is a factory declaring a dependency whose tag name is
`b`. -/
def depEdge (g : Graph) (a b : String) : Prop :=
  ∃ tag deps opts, getA g.layerMap a = some (.factory tag deps opts) ∧
    b ∈ deps.map (·.name)

/-- Every tag name transitively required from `n` through declared
dependencies has a registered layer. -/
def GroundedD (g : Graph) (n : String) : Prop :=
  ∀ m, Relation.ReflTransGen (depEdge g) n m → (getA g.layerMap m).isSome

/-- State of the depth-first search in `topologicalSort`: `visited` (black),
`temp` (gray, a stack with the current node first), and the produced
`order`. -/
structure VState where
  visited : List String
  temp : List String
  order : List String
deriving DecidableEq, Repr

/-- Visiting each dependency of a node in recorded order; `f` is the
recursive `visit` at the remaining fuel.  (Formulated over the function
argument so that the recursion is structural and kernel-reducible.) -/
def visitList (f : VState → String → Option (Except String VState)) :
    VState → List String → Option (Except String VState)
  | st, [] => some (.ok st)
  | st, d :: ds =>
    match f st d with
    | none => none
    | some (.error e) => some (.error e)
    | some (.ok st') => visitList f st' ds

/-- The recursive `visit` of `topologicalSort`.  `none` means the fuel ran
out (proved impossible for the fuel chosen by `topologicalSort`); an
`Except.error` carries the gray node name whose re-entry was detected
(`Circular dependency detected: <name>`). -/
def visit (g : Graph) : Nat → VState → String → Option (Except String VState)
  | 0, _, _ => none
  | fuel + 1, st, n =>
    if n ∈ st.temp then some (.error n)
    else if n ∈ st.visited then some (.ok st)
    else
      match visitList (visit g fuel) { st with temp := n :: st.temp } (depsOfG g n) with
      | none => none
      | some (.error e) => some (.error e)
      | some (.ok st2) =>
        some (.ok { st2 with
          temp := st2.temp.erase n,
          visited := n :: st2.visited,
          order := st2.order ++ [n] })

/-- All names the DFS can ever touch: registered node names and recorded
edge targets. -/
def universeNames (g : Graph) : List String :=
  keysA g.nodes ++ g.edges.flatMap (·.2)

/-- Fuel that suffices for the DFS (proved below). -/
def fuelT (g : Graph) : Nat := (universeNames g).dedup.length + 1

/-- The loop of `visitAll`: visit every registered node not yet visited, in
node insertion order. -/
def visitAll (g : Graph) : VState → List String → Option (Except String VState)
  | st, [] => some (.ok st)
  | st, k :: ks =>
    if k ∈ st.visited then visitAll g st ks
    else
      match visit g (fuelT g) st k with
      | none => none
      | some (.error e) => some (.error e)
      | some (.ok st') => visitAll g st' ks

/-- `topologicalSort` from `container.ts`: returns the produced order, or
the name at which a circular dependency was detected. -/
def topologicalSort (g : Graph) : Option (Except String (List String)) :=
  match visitAll g ⟨[], [], []⟩ (keysA g.nodes) with
  | none => none
  | some (.error n) => some (.error n)
  | some (.ok st) => some (.ok st.order)

/-- Construction-time errors of `createContainer` (`container.ts` throws
`Error` objects; the two messages are distinguishable kinds).  `outOfFuel`
is an artefact of the fuelled model, proved unreachable. -/
inductive CErr where
  | circular (name : String)
  | duplicateTag (names : List String)
  | outOfFuel
deriving DecidableEq, Repr

/-- Whether `createContainer`'s duplicate check is disabled:
`impl.isMerged() && impl.mergeOptions?.allowDuplicates` — only the root
layer's merge options are consulted. -/
def rootAllowsDuplicates : Layer → Bool
  | .merged _ (some mo) => mo.allowDuplicates.getD false
  | _ => false

/-- The duplicated tag names enumerated by the `DuplicateTag` error message,
in `tagCounts` iteration order. -/
def duplicateNames (g : Graph) : List String :=
  g.tagCounts.filterMap fun p => if p.2 > 1 then some p.1 else none

/-- The validation part of `createContainer`: flatten the layer, run the
eager cycle check, then the duplicate check; on success the validated graph
is the immutable part of the returned container (its runtime state starts
as `initState`). -/
def createContainer (layer : Layer) : Except CErr Graph :=
  let g := buildGraph layer
  match topologicalSort g with
  | none => .error .outOfFuel
  | some (.error n) => .error (.circular n)
  | some (.ok _) =>
    if rootAllowsDuplicates layer then .ok g
    else if (duplicateNames g).isEmpty then .ok g
    else .error (.duplicateTag (duplicateNames g))

/-- Runtime instance values: a caller-supplied value (`Layer.value`
payload) or an object allocated by a factory invocation, stamped with a
fresh allocation id (JS object identity). -/
inductive Value where
  | prim (k : Nat)
  | obj (id : Nat)
deriving DecidableEq, Repr

/-- Instrumentation record of one factory invocation: the tag name, the
fresh id of the allocated instance, and the resolved dependency arguments
passed to the factory, in declared order. -/
structure BuildEvent where
  name : String
  id : Nat
  args : List Value
deriving DecidableEq, Repr

/-- `ServiceDefinition` from `container.ts` (field `instance` is renamed
`inst`: `instance` is a Lean keyword). -/
structure ServiceDefinition where
  tag : Tag
  inst : Value
  scope : Scope
  dispose : Bool
deriving DecidableEq, Repr

/-- Mutable runtime state of a container: the `services` map (the disposal
log) and the `singletons` memo, plus the instrumentation counter and build
log. -/
structure RState where
  services : List (String × ServiceDefinition)
  singletons : List (String × Value)
  counter : Nat
  buildLog : List BuildEvent
deriving DecidableEq, Repr

/-- Fresh runtime state of a newly created container. -/
def initState : RState := ⟨[], [], 0, []⟩

/-- Lookup-time errors (`Service not found: <name>`); `outOfFuel` is an
artefact of the fuelled model, proved unreachable on validated graphs. -/
inductive RErr where
  | serviceNotFound (name : String)
  | outOfFuel
deriving DecidableEq, Repr

/-- Effective scope of a factory layer: `impl.options?.scope || 'singleton'`. -/
def effScope (options : Option LayerOptions) : Scope :=
  (options.bind (·.scope)).getD .singleton

/-- Effective dispose-hook presence: `impl.options?.dispose`. -/
def effDispose (options : Option LayerOptions) : Bool :=
  (options.map (·.dispose)).getD false

/-- Resolution of a factory's declared dependencies, left to right
(`impl.dependencies.map(...)` with exception propagation); `f` is the
recursive `createService` at the remaining fuel.  (Formulated over the
function argument so that the recursion is structural and
kernel-reducible.) -/
def resolveDeps (f : Tag → RState → Except RErr Value × RState) :
    List Tag → RState → Except RErr (List Value) × RState
  | [], s => (.ok [], s)
  | d :: ds, s =>
    match f d s with
    | (.error e, s1) => (.error e, s1)
    | (.ok v, s1) =>
      match resolveDeps f ds s1 with
      | (.error e, s2) => (.error e, s2)
      | (.ok vs, s2) => (.ok (v :: vs), s2)

/-- `createService` from `container.ts`.  State threads through errors:
mutations performed before a throw persist, as with in-place JS `Map`s. -/
def createService (g : Graph) : Nat → Tag → RState → Except RErr Value × RState
  | 0, _, s => (.error .outOfFuel, s)
  | fuel + 1, tag, s =>
    match getA s.singletons tag.name with
    | some v => (.ok v, s)
    | none =>
      match getA g.layerMap tag.name with
      | none => (.error (.serviceNotFound tag.name), s)
      | some (.value _ v) =>
        let inst := Value.prim v
        (.ok inst,
          { s with
            singletons := setA s.singletons tag.name inst,
            services :=
              setA s.services tag.name (⟨tag, inst, .singleton, false⟩ : ServiceDefinition) })
      | some (.factory _ dependencies options) =>
        match resolveDeps (createService g fuel) dependencies s with
        | (.error e, s1) => (.error e, s1)
        | (.ok args, s1) =>
          let inst := Value.obj s1.counter
          let s2 :=
            { s1 with
              counter := s1.counter + 1,
              buildLog := s1.buildLog ++ [(⟨tag.name, s1.counter, args⟩ : BuildEvent)] }
          let scope := effScope options
          let disp := effDispose options
          if scope = .singleton then
            (.ok inst,
              { s2 with
                singletons := setA s2.singletons tag.name inst,
                services :=
                  setA s2.services tag.name (⟨tag, inst, scope, disp⟩ : ServiceDefinition) })
          else
            (.ok inst,
              { s2 with
                services :=
                  setA s2.services tag.name (⟨tag, inst, scope, disp⟩ : ServiceDefinition) })

/-- Fuel that suffices for resolution on validated (acyclic) graphs
(proved below). -/
def csFuel (g : Graph) : Nat := (keysA g.nodes).length + 2

/-- `container.get` from `container.ts`. -/
def getService (g : Graph) (tag : Tag) (s : RState) : Except RErr Value × RState :=
  match getA s.services tag.name with
  | some existing =>
    if existing.scope = .singleton then (.ok existing.inst, s)
    else createService g (csFuel g) tag s
  | none => createService g (csFuel g) tag s

/-- `container.dispose` from `container.ts`: invoke the dispose hook of
every recorded service once with its recorded instance (returned as the
invocation list, in `services` iteration order), then clear `services` and
`singletons`.  Hooks are opaque and assumed to settle. -/
def disposeContainer (s : RState) : List (String × Value) × RState :=
  (s.services.filterMap fun p =>
      if p.2.dispose then some (p.2.tag.name, p.2.inst) else none,
   { s with services := [], singletons := [] })

/-- Thread a sequence of `get` calls through the runtime state, discarding
results. -/
def runGets (g : Graph) : RState → List Tag → RState
  | s, [] => s
  | s, t :: ts => runGets g (getService g t s).2 ts

/-- Number of builds of a given tag name recorded in a build log. -/
def countBuilds (n : String) (log : List BuildEvent) : Nat :=
  (log.filter fun e => e.name = n).length

/-! ## Characterization of the graph builder -/

/-- The tag name under which a leaf layer is registered. -/
def leafName : ServiceLayer → String
  | .value tag _ => tag.name
  | .factory tag _ _ => tag.name

/-- Registering a list of leaves left to right; `collectLayers` is proved
equal to this on the leaves of the tree. -/
def registerAll (g : Graph) (L : List ServiceLayer) : Graph :=
  L.foldl registerLeaf g

/-- The last layer registered under a given tag name, if any: the
specification's "last-registered layer for a given tag silently wins". -/
def lastWith : List ServiceLayer → String → Option ServiceLayer
  | [], _ => none
  | sl :: L, n =>
    match lastWith L n with
    | some r => some r
    | none => if leafName sl = n then some sl else none

/-- Number of leaves registered under a given tag name. -/
def leafCount (L : List ServiceLayer) (n : String) : Nat :=
  (L.filter fun sl => leafName sl = n).length

mutual

/-- Whether `allowDuplicates` is requested on any merge node of the tree. -/
def anyAllowDup : Layer → Bool
  | .merged layers mo =>
    (mo.map fun m => m.allowDuplicates.getD false).getD false || anyAllowDupList layers
  | .value _ _ => false
  | .factory _ _ _ => false

/-- `anyAllowDup` over a list of layers. -/
def anyAllowDupList : List Layer → Bool
  | [] => false
  | l :: ls => anyAllowDup l || anyAllowDupList ls

end

theorem registerAll_cons (g : Graph) (sl : ServiceLayer) (L : List ServiceLayer) :
    registerAll g (sl :: L) = registerAll (registerLeaf g sl) L := rfl

theorem registerAll_append (g : Graph) (L1 L2 : List ServiceLayer) :
    registerAll g (L1 ++ L2) = registerAll (registerAll g L1) L2 := by
  simp [registerAll, List.foldl_append]

mutual

theorem collectLayers_leaves (g : Graph) (l : Layer) :
    collectLayers g l = registerAll g (leaves l) := by
  match l with
  | .value tag v => rfl
  | .factory tag deps opts => rfl
  | .merged layers mo =>
    rw [show collectLayers g (.merged layers mo) = collectList g layers from rfl,
      show leaves (.merged layers mo) = leavesList layers from rfl]
    exact collectList_leavesList g layers

theorem collectList_leavesList (g : Graph) (L : List Layer) :
    collectList g L = registerAll g (leavesList L) := by
  match L with
  | [] => rfl
  | l :: ls =>
    rw [show collectList g (l :: ls) = collectList (collectLayers g l) ls from rfl,
      show leavesList (l :: ls) = leaves l ++ leavesList ls from rfl,
      registerAll_append, collectLayers_leaves g l]
    exact collectList_leavesList (registerAll g (leaves l)) ls

end

theorem buildGraph_eq_registerAll (t : Layer) :
    buildGraph t = registerAll emptyGraph (leaves t) :=
  collectLayers_leaves emptyGraph t

theorem registerLeaf_layerMap (g : Graph) (sl : ServiceLayer) (n : String) :
    getA (registerLeaf g sl).layerMap n =
      if leafName sl = n then some sl else getA g.layerMap n := by
  match sl with
  | .value tag v =>
    by_cases h : tag.name = n
    · subst h
      simp [registerLeaf, leafName, getA_setA_self]
    · simp [registerLeaf, leafName, h, getA_setA_ne _ _ _ _ fun hh => h hh.symm]
  | .factory tag deps opts =>
    by_cases h : tag.name = n
    · subst h
      by_cases hd : deps.length > 0 <;>
        simp [registerLeaf, leafName, hd, getA_setA_self]
    · by_cases hd : deps.length > 0 <;>
        simp [registerLeaf, leafName, h, hd, getA_setA_ne _ _ _ _ fun hh => h hh.symm]

theorem registerLeaf_nodes (g : Graph) (sl : ServiceLayer) (n : String) :
    (getA (registerLeaf g sl).nodes n).isSome ↔
      leafName sl = n ∨ (getA g.nodes n).isSome := by
  match sl with
  | .value tag v =>
    by_cases h : tag.name = n
    · subst h
      simp [registerLeaf, leafName, getA_setA_self]
    · simp [registerLeaf, leafName, h, getA_setA_ne _ _ _ _ fun hh => h hh.symm]
  | .factory tag deps opts =>
    by_cases h : tag.name = n
    · subst h
      by_cases hd : deps.length > 0 <;>
        simp [registerLeaf, leafName, hd, getA_setA_self]
    · by_cases hd : deps.length > 0 <;>
        simp [registerLeaf, leafName, h, hd, getA_setA_ne _ _ _ _ fun hh => h hh.symm]

theorem registerLeaf_tagCounts (g : Graph) (sl : ServiceLayer) (n : String) :
    getA (registerLeaf g sl).tagCounts n =
      if leafName sl = n then some ((getA g.tagCounts n).getD 0 + 1)
      else getA g.tagCounts n := by
  match sl with
  | .value tag v =>
    by_cases h : tag.name = n
    · subst h
      simp [registerLeaf, leafName, incrementTagCount, getA_setA_self]
    · simp [registerLeaf, leafName, h, incrementTagCount,
        getA_setA_ne _ _ _ _ fun hh => h hh.symm]
  | .factory tag deps opts =>
    by_cases h : tag.name = n
    · subst h
      by_cases hd : deps.length > 0 <;>
        simp [registerLeaf, leafName, hd, incrementTagCount, getA_setA_self]
    · by_cases hd : deps.length > 0 <;>
        simp [registerLeaf, leafName, h, hd, incrementTagCount,
          getA_setA_ne _ _ _ _ fun hh => h hh.symm]

theorem registerAll_layerMap (L : List ServiceLayer) (g : Graph) (n : String) :
    getA (registerAll g L).layerMap n =
      match lastWith L n with
      | some r => some r
      | none => getA g.layerMap n := by
  induction L generalizing g with
  | nil => rfl
  | cons sl L ih =>
    rw [registerAll_cons, ih]
    show _ = (match lastWith (sl :: L) n with
      | some r => some r
      | none => getA g.layerMap n)
    rw [show lastWith (sl :: L) n =
        (match lastWith L n with
         | some r => some r
         | none => if leafName sl = n then some sl else none) from rfl]
    cases h : lastWith L n with
    | some r => simp
    | none =>
      simp only
      rw [registerLeaf_layerMap]
      by_cases hn : leafName sl = n <;> simp [hn]

theorem registerAll_tagCounts (L : List ServiceLayer) (g : Graph) (n : String) :
    (getA (registerAll g L).tagCounts n).getD 0 =
      (getA g.tagCounts n).getD 0 + leafCount L n := by
  induction L generalizing g with
  | nil => simp [registerAll, leafCount]
  | cons sl L ih =>
    rw [registerAll_cons, ih]
    rw [registerLeaf_tagCounts]
    by_cases hn : leafName sl = n
    · simp only [if_pos hn, Option.getD_some]
      have : leafCount (sl :: L) n = leafCount L n + 1 := by
        simp [leafCount, List.filter_cons, hn]
      omega
    · simp only [if_neg hn]
      have : leafCount (sl :: L) n = leafCount L n := by
        simp [leafCount, List.filter_cons, hn]
      omega

theorem registerAll_tagCounts_isSome (L : List ServiceLayer) (g : Graph) (n : String) :
    (getA (registerAll g L).tagCounts n).isSome ↔
      (getA g.tagCounts n).isSome ∨ leafCount L n > 0 := by
  induction L generalizing g with
  | nil => simp [registerAll, leafCount]
  | cons sl L ih =>
    rw [registerAll_cons, ih, registerLeaf_tagCounts]
    by_cases hn : leafName sl = n
    · have : leafCount (sl :: L) n = leafCount L n + 1 := by
        simp [leafCount, List.filter_cons, hn]
      simp [if_pos hn, this]
    · have : leafCount (sl :: L) n = leafCount L n := by
        simp [leafCount, List.filter_cons, hn]
      simp [if_neg hn, this]

/-- The per-name tag count of the built graph equals the number of leaves
registered under that name. -/
theorem buildGraph_tagCounts (t : Layer) (n : String) :
    getA (buildGraph t).tagCounts n =
      if leafCount (leaves t) n = 0 then none else some (leafCount (leaves t) n) := by
  have h1 := registerAll_tagCounts (leaves t) emptyGraph n
  have h2 := registerAll_tagCounts_isSome (leaves t) emptyGraph n
  rw [buildGraph_eq_registerAll]
  have he : getA emptyGraph.tagCounts n = none := rfl
  rw [he] at h1 h2
  simp only [Option.getD_none, Nat.zero_add, Option.isSome_none, Bool.false_eq_true,
    false_or] at h1 h2
  by_cases h : leafCount (leaves t) n = 0
  · simp only [if_pos h]
    cases hx : getA (registerAll emptyGraph (leaves t)).tagCounts n with
    | none => rfl
    | some k =>
      rw [hx] at h2
      simp at h2
      omega
  · simp only [if_neg h]
    cases hx : getA (registerAll emptyGraph (leaves t)).tagCounts n with
    | none =>
      rw [hx] at h2
      simp at h2
      omega
    | some k =>
      rw [hx] at h1
      simp at h1
      rw [h1]

/-- The layer registered for a name in the built graph is the last leaf of
the tree carrying that name. -/
theorem buildGraph_layerMap (t : Layer) (n : String) :
    getA (buildGraph t).layerMap n = lastWith (leaves t) n := by
  rw [buildGraph_eq_registerAll, registerAll_layerMap]
  cases h : lastWith (leaves t) n <;> simp [emptyGraph, getA]

/-! ## Well-formedness of built graphs -/

theorem getA_mem {α : Type} (l : List (String × α)) (n : String) (v : α)
    (h : getA l n = some v) : (n, v) ∈ l := by
  induction l with
  | nil => simp [getA] at h
  | cons p t ih =>
    obtain ⟨k, w⟩ := p
    by_cases hk : k = n
    · subst hk
      have hw : getA ((k, w) :: t) k = some w := by simp [getA]
      rw [hw] at h
      cases h
      exact List.mem_cons_self _ _
    · simp only [getA, if_neg hk] at h
      exact List.mem_cons_of_mem _ (ih h)

theorem getA_of_mem_nodup {α : Type} (l : List (String × α)) (n : String) (v : α)
    (hnd : (keysA l).Nodup) (h : (n, v) ∈ l) : getA l n = some v := by
  induction l with
  | nil => simp at h
  | cons p t ih =>
    obtain ⟨k, w⟩ := p
    simp only [keysA, List.map_cons, List.nodup_cons] at hnd
    rcases List.mem_cons.mp h with heq | hmem
    · cases heq
      simp [getA]
    · have hk : k ≠ n := by
        intro hkn
        apply hnd.1
        rw [hkn]
        exact List.mem_map.mpr ⟨(n, v), hmem, rfl⟩
      simp only [getA, if_neg hk]
      exact ih hnd.2 hmem

theorem mem_foldl_addName (l : List Tag) (acc : List String) (x : String) :
    x ∈ l.foldl (fun a d => addName a d.name) acc ↔
      x ∈ acc ∨ ∃ d ∈ l, d.name = x := by
  induction l generalizing acc with
  | nil => simp
  | cons d ds ih =>
    simp only [List.foldl_cons, ih, mem_addName]
    constructor
    · rintro (⟨hx | rfl⟩ | ⟨e, he, rfl⟩)
      · exact Or.inl hx
      · exact Or.inr ⟨d, List.mem_cons_self _ _, rfl⟩
      · exact Or.inr ⟨e, List.mem_cons_of_mem _ he, rfl⟩
    · rintro (hx | ⟨e, he, rfl⟩)
      · exact Or.inl (Or.inl hx)
      · rcases List.mem_cons.mp he with rfl | he'
        · exact Or.inl (Or.inr rfl)
        · exact Or.inr ⟨e, he', rfl⟩

theorem mem_depNames (deps : List Tag) (x : String) :
    x ∈ depNames deps ↔ ∃ d ∈ deps, d.name = x := by
  simp [depNames, mem_foldl_addName]

/-- Structural invariants of graphs produced by `buildGraph`. -/
structure GraphWF (g : Graph) : Prop where
  edges_sub : ∀ k, k ∈ keysA g.edges → k ∈ keysA g.nodes
  layer_nodes : ∀ n, (getA g.layerMap n).isSome ↔ (getA g.nodes n).isSome
  deps_sub : ∀ n tg deps opts, getA g.layerMap n = some (.factory tg deps opts) →
    ∀ d ∈ deps, d.name ∈ depsOfG g n
  nodes_nodup : (keysA g.nodes).Nodup
  counts_nodup : (keysA g.tagCounts).Nodup

theorem registerLeaf_nodes_eq (g : Graph) (sl : ServiceLayer) :
    (registerLeaf g sl).nodes = setA g.nodes (leafName sl)
      (match sl with | .value tag _ => tag | .factory tag _ _ => tag) := by
  cases sl with
  | value tag v => rfl
  | factory tag deps opts =>
    by_cases hd : deps.length > 0 <;> simp [registerLeaf, hd, leafName]

theorem registerLeaf_tagCounts_eq (g : Graph) (sl : ServiceLayer) :
    (registerLeaf g sl).tagCounts = incrementTagCount g.tagCounts (leafName sl) := by
  cases sl with
  | value tag v => rfl
  | factory tag deps opts =>
    by_cases hd : deps.length > 0 <;> simp [registerLeaf, hd, leafName]

theorem registerLeaf_edges_getA (g : Graph) (sl : ServiceLayer) (n : String) :
    getA (registerLeaf g sl).edges n =
      match sl with
      | .value _ _ => getA g.edges n
      | .factory tag deps _ =>
        if tag.name = n ∧ deps.length > 0 then some (depNames deps)
        else getA g.edges n := by
  cases sl with
  | value tag v => rfl
  | factory tag deps opts =>
    by_cases hd : deps.length > 0
    · simp only [registerLeaf, if_pos hd]
      by_cases hn : tag.name = n
      · subst hn
        simp [hd, getA_setA_self]
      · simp only [hn, hd, false_and, if_false]
        exact getA_setA_ne _ _ _ _ fun hh => hn hh.symm
    · simp [registerLeaf, hd]

theorem registerLeaf_wf (g : Graph) (sl : ServiceLayer) (h : GraphWF g) :
    GraphWF (registerLeaf g sl) := by
  have hkeys : ∀ x, x ∈ keysA (registerLeaf g sl).nodes ↔
      x ∈ keysA g.nodes ∨ x = leafName sl := by
    intro x
    rw [registerLeaf_nodes_eq]
    exact mem_keysA_setA _ _ _ _
  refine ⟨?_, ?_, ?_, ?_, ?_⟩
  · intro k hk
    have hk' : k ∈ keysA g.edges ∨ k = leafName sl := by
      cases sl with
      | value tag v => exact Or.inl hk
      | factory tag deps opts =>
        by_cases hd : deps.length > 0
        · simp only [registerLeaf, if_pos hd] at hk
          rcases (mem_keysA_setA g.edges tag.name k _).mp hk with hm | rfl
          · exact Or.inl hm
          · exact Or.inr rfl
        · simp only [registerLeaf, if_neg hd] at hk
          exact Or.inl hk
    rcases hk' with hm | rfl
    · exact (hkeys k).mpr (Or.inl (h.edges_sub k hm))
    · exact (hkeys _).mpr (Or.inr rfl)
  · intro n
    rw [registerLeaf_layerMap]
    constructor
    · intro hs
      rw [getA_isSome_mem_keysA, hkeys n]
      by_cases hn : leafName sl = n
      · exact Or.inr hn.symm
      · rw [if_neg hn] at hs
        refine Or.inl ?_
        rw [← getA_isSome_mem_keysA]
        exact (h.layer_nodes n).mp hs
    · intro hs
      rw [getA_isSome_mem_keysA, hkeys n] at hs
      by_cases hn : leafName sl = n
      · simp [if_pos hn]
      · rw [if_neg hn]
        rcases hs with hm | rfl
        · refine (h.layer_nodes n).mpr ?_
          rw [getA_isSome_mem_keysA]
          exact hm
        · exact absurd rfl hn
  · intro n tg deps opts hget d hd
    rw [registerLeaf_layerMap] at hget
    by_cases hn : leafName sl = n
    · rw [if_pos hn] at hget
      cases hget
      have hname : tg.name = n := hn
      unfold depsOfG
      rw [registerLeaf_edges_getA]
      by_cases hlen : deps.length > 0
      · simp only [hname, hlen, and_self, if_true, Option.getD_some]
        exact (mem_depNames deps d.name).mpr ⟨d, hd, rfl⟩
      · have : deps = [] := List.length_eq_zero.mp (by omega)
        subst this
        simp at hd
    · rw [if_neg hn] at hget
      have hdeq : depsOfG (registerLeaf g sl) n = depsOfG g n := by
        unfold depsOfG
        rw [registerLeaf_edges_getA]
        cases sl with
        | value tag v => rfl
        | factory tag deps0 opts0 =>
          have : ¬ (tag.name = n ∧ deps0.length > 0) := by
            rintro ⟨rfl, -⟩
            exact hn rfl
          simp [this]
      rw [hdeq]
      exact h.deps_sub n tg deps opts hget d hd
  · rw [registerLeaf_nodes_eq]
    exact keysA_setA_nodup _ _ _ h.nodes_nodup
  · rw [registerLeaf_tagCounts_eq]
    exact keysA_setA_nodup _ _ _ h.counts_nodup

theorem registerAll_wf (L : List ServiceLayer) (g : Graph) (h : GraphWF g) :
    GraphWF (registerAll g L) := by
  induction L generalizing g with
  | nil => exact h
  | cons sl L ih =>
    rw [registerAll_cons]
    exact ih _ (registerLeaf_wf g sl h)

theorem emptyGraph_wf : GraphWF emptyGraph := by
  refine ⟨?_, ?_, ?_, ?_, ?_⟩ <;> simp [emptyGraph, keysA, getA]

theorem buildGraph_wf (t : Layer) : GraphWF (buildGraph t) := by
  rw [buildGraph_eq_registerAll]
  exact registerAll_wf _ _ emptyGraph_wf

/-! ## Depth-first search: state discipline -/

/-- Facts about a successful `visit`: the gray stack is restored, the black
set only grows, the visited node is black afterwards, and every newly
blackened node was not gray at entry. -/
def VisitOk (st st' : VState) (n : String) : Prop :=
  st'.temp = st.temp ∧ (∀ x ∈ st.visited, x ∈ st'.visited) ∧ n ∈ st'.visited ∧
    (∀ x ∈ st'.visited, x ∈ st.visited ∨ x ∉ st.temp)

/-- Facts about a successful `visitList`. -/
def VisitListOk (st st' : VState) (ds : List String) : Prop :=
  st'.temp = st.temp ∧ (∀ x ∈ st.visited, x ∈ st'.visited) ∧ (∀ d ∈ ds, d ∈ st'.visited) ∧
    (∀ x ∈ st'.visited, x ∈ st.visited ∨ x ∉ st.temp)

theorem visitList_ok_of (g : Graph) (fuel : Nat)
    (hv : ∀ st n st', visit g fuel st n = some (.ok st') → VisitOk st st' n) :
    ∀ ds st st', visitList (visit g fuel) st ds = some (.ok st') → VisitListOk st st' ds := by
  intro ds
  induction ds with
  | nil =>
    intro st st' h
    simp only [visitList] at h
    cases h
    exact ⟨rfl, fun x hx => hx, by simp, fun x hx => Or.inl hx⟩
  | cons d ds ih =>
    intro st st' h
    simp only [visitList] at h
    split at h
    · exact absurd h (by simp)
    · exact absurd h (by simp)
    · rename_i stm hm
      obtain ⟨ht1, hv1, hd1, he1⟩ := hv st d stm hm
      obtain ⟨ht2, hv2, hd2, he2⟩ := ih stm st' h
      refine ⟨ht2.trans ht1, fun x hx => hv2 x (hv1 x hx), ?_, ?_⟩
      · intro x hx
        rcases List.mem_cons.mp hx with rfl | hx'
        · exact hv2 x hd1
        · exact hd2 x hx'
      · intro x hx
        rcases he2 x hx with hx' | hx'
        · exact he1 x hx'
        · rw [ht1] at hx'
          exact Or.inr hx'

theorem visit_ok (g : Graph) :
    ∀ fuel st n st', visit g fuel st n = some (.ok st') → VisitOk st st' n := by
  intro fuel
  induction fuel with
  | zero =>
    intro st n st' h
    simp [visit] at h
  | succ fuel ih =>
    intro st n st' h
    simp only [visit] at h
    by_cases h1 : n ∈ st.temp
    · rw [if_pos h1] at h
      simp at h
    · rw [if_neg h1] at h
      by_cases h2 : n ∈ st.visited
      · rw [if_pos h2] at h
        cases h
        exact ⟨rfl, fun x hx => hx, h2, fun x hx => Or.inl hx⟩
      · rw [if_neg h2] at h
        split at h
        · exact absurd h (by simp)
        · exact absurd h (by simp)
        · rename_i st2 hvl
          obtain ⟨ht, hv, hd, he⟩ := visitList_ok_of g fuel ih _ _ _ hvl
          cases h
          refine ⟨?_, ?_, by simp, ?_⟩
          · show ((st2.temp).erase n) = st.temp
            rw [ht]
            exact List.erase_cons_head n st.temp
          · intro x hx
            exact List.mem_cons_of_mem _ (hv x hx)
          · intro x hx
            rcases List.mem_cons.mp hx with rfl | hx'
            · exact Or.inr h1
            · rcases he x hx' with hx'' | hx''
              · exact Or.inl hx''
              · exact Or.inr fun hc => hx'' (List.mem_cons_of_mem _ hc)

/-! ## Depth-first search: the produced order is topological -/

theorem indexOf_append_of_mem {x : String} {l : List String} (a : String) (h : x ∈ l) :
    (l ++ [a]).indexOf x = l.indexOf x := by
  induction l with
  | nil => simp at h
  | cons b t ih =>
    by_cases hbx : b = x
    · subst hbx
      simp [List.indexOf_cons]
    · rcases List.mem_cons.mp h with rfl | hm
      · exact absurd rfl hbx
      · have hb : (b == x) = false := beq_false_of_ne hbx
        simp [List.indexOf_cons, hb, ih hm]

theorem indexOf_append_self {a : String} {l : List String} (h : a ∉ l) :
    (l ++ [a]).indexOf a = l.length := by
  induction l with
  | nil => simp [List.indexOf_cons]
  | cons b t ih =>
    have hba : b ≠ a := by
      rintro rfl
      exact h (List.mem_cons_self _ _)
    have hb : (b == a) = false := beq_false_of_ne hba
    have ht : a ∉ t := fun hc => h (List.mem_cons_of_mem _ hc)
    simp [List.indexOf_cons, hb, ih ht]

theorem indexOf_lt_of_mem {x : String} {l : List String} (h : x ∈ l) :
    l.indexOf x < l.length := by
  induction l with
  | nil => simp at h
  | cons b t ih =>
    by_cases hbx : b = x
    · subst hbx
      simp [List.indexOf_cons]
    · rcases List.mem_cons.mp h with rfl | hm
      · exact absurd rfl hbx
      · have hb : (b == x) = false := beq_false_of_ne hbx
        simp only [List.indexOf_cons, hb, cond_false, List.length_cons]
        have := ih hm
        omega

/-- Invariant of the DFS state: the black set and the produced order hold
the same names, the order has no duplicates, and every recorded edge points
backwards in the order. -/
def OInv (g : Graph) (st : VState) : Prop :=
  (∀ x, x ∈ st.visited ↔ x ∈ st.order) ∧ st.order.Nodup ∧
    (∀ a, a ∈ st.order → ∀ b, edgeRel g a b →
      b ∈ st.order ∧ st.order.indexOf b < st.order.indexOf a)

theorem visitList_OInv_of (g : Graph) (fuel : Nat)
    (hv : ∀ st n st', visit g fuel st n = some (.ok st') → OInv g st → OInv g st') :
    ∀ ds st st', visitList (visit g fuel) st ds = some (.ok st') → OInv g st → OInv g st' := by
  intro ds
  induction ds with
  | nil =>
    intro st st' h hO
    simp only [visitList] at h
    cases h
    exact hO
  | cons d ds ih =>
    intro st st' h hO
    simp only [visitList] at h
    split at h
    · exact absurd h (by simp)
    · exact absurd h (by simp)
    · rename_i stm hm
      exact ih stm st' h (hv st d stm hm hO)

theorem visit_OInv (g : Graph) :
    ∀ fuel st n st', visit g fuel st n = some (.ok st') → OInv g st → OInv g st' := by
  intro fuel
  induction fuel with
  | zero =>
    intro st n st' h
    simp [visit] at h
  | succ fuel ih =>
    intro st n st' h hO
    simp only [visit] at h
    by_cases h1 : n ∈ st.temp
    · rw [if_pos h1] at h
      simp at h
    · rw [if_neg h1] at h
      by_cases h2 : n ∈ st.visited
      · rw [if_pos h2] at h
        cases h
        exact hO
      · rw [if_neg h2] at h
        split at h
        · exact absurd h (by simp)
        · exact absurd h (by simp)
        · rename_i st2 hvl
          obtain ⟨ht, hv, hd, he⟩ := visitList_ok_of g fuel (visit_ok g fuel) _ _ _ hvl
          have hO2 : OInv g st2 := visitList_OInv_of g fuel ih _ _ _ hvl hO
          cases h
          have hnv : n ∉ st2.visited := by
            intro hc
            rcases he n hc with hc' | hc'
            · exact h2 hc'
            · exact hc' (List.mem_cons_self _ _)
          have hno : n ∉ st2.order := fun hc => hnv ((hO2.1 n).mpr hc)
          refine ⟨?_, ?_, ?_⟩
          · intro x
            show x ∈ n :: st2.visited ↔ x ∈ st2.order ++ [n]
            simp only [List.mem_cons, List.mem_append, List.mem_singleton, hO2.1 x]
            tauto
          · show (st2.order ++ [n]).Nodup
            rw [List.nodup_append]
            refine ⟨hO2.2.1, List.nodup_singleton n, ?_⟩
            intro a ha hb
            rw [List.mem_singleton] at hb
            subst hb
            exact hno ha
          · intro a ha b hb
            show b ∈ st2.order ++ [n] ∧
              (st2.order ++ [n]).indexOf b < (st2.order ++ [n]).indexOf a
            rcases List.mem_append.mp ha with ha2 | ha1
            · obtain ⟨hbm, hbi⟩ := hO2.2.2 a ha2 b hb
              refine ⟨List.mem_append_left _ hbm, ?_⟩
              rw [indexOf_append_of_mem n hbm, indexOf_append_of_mem n ha2]
              exact hbi
            · rw [List.mem_singleton] at ha1
              subst ha1
              have hbm : b ∈ st2.order := (hO2.1 b).mp (hd b hb)
              refine ⟨List.mem_append_left _ hbm, ?_⟩
              rw [indexOf_append_of_mem a hbm, indexOf_append_self hno]
              exact indexOf_lt_of_mem hbm

theorem visitAll_ok_props (g : Graph) :
    ∀ ks st st', visitAll g st ks = some (.ok st') → OInv g st →
      OInv g st' ∧ (∀ k ∈ ks, k ∈ st'.visited) ∧ (∀ x ∈ st.visited, x ∈ st'.visited) := by
  intro ks
  induction ks with
  | nil =>
    intro st st' h hO
    simp only [visitAll] at h
    cases h
    exact ⟨hO, by simp, fun x hx => hx⟩
  | cons k ks ih =>
    intro st st' h hO
    simp only [visitAll] at h
    by_cases hk : k ∈ st.visited
    · rw [if_pos hk] at h
      obtain ⟨hO', hks, hmono⟩ := ih st st' h hO
      exact ⟨hO', fun x hx => by
        rcases List.mem_cons.mp hx with rfl | hx'
        · exact hmono x hk
        · exact hks x hx', hmono⟩
    · rw [if_neg hk] at h
      split at h
      · exact absurd h (by simp)
      · exact absurd h (by simp)
      · rename_i stm hm
        obtain ⟨-, hvmono, hkm, -⟩ := visit_ok g (fuelT g) st k stm hm
        have hOm : OInv g stm := visit_OInv g (fuelT g) st k stm hm hO
        obtain ⟨hO', hks, hmono⟩ := ih stm st' h hOm
        refine ⟨hO', ?_, fun x hx => hmono x (hvmono x hx)⟩
        intro x hx
        rcases List.mem_cons.mp hx with rfl | hx'
        · exact hmono x hkm
        · exact hks x hx'

theorem transGen_exists_first {r : String → String → Prop} {a b : String}
    (h : Relation.TransGen r a b) : ∃ c, r a c := by
  induction h with
  | single h => exact ⟨_, h⟩
  | tail _ _ ih => exact ih

theorem ord_desc (g : Graph) (st : VState) (hOI : OInv g st) :
    ∀ a b, Relation.TransGen (edgeRel g) a b → a ∈ st.order →
      b ∈ st.order ∧ st.order.indexOf b < st.order.indexOf a := by
  intro a b h
  induction h with
  | single hr => exact fun ha => hOI.2.2 a ha _ hr
  | tail hab hbc ih =>
    intro ha
    obtain ⟨hb, hib⟩ := ih ha
    obtain ⟨hc, hic⟩ := hOI.2.2 _ hb _ hbc
    exact ⟨hc, hic.trans hib⟩

/-- If the eager DFS validation succeeds, the recorded graph is acyclic. -/
theorem topologicalSort_ok_acyclic (g : Graph) (hWF : GraphWF g) (ord : List String)
    (h : topologicalSort g = some (.ok ord)) : AcyclicE g := by
  unfold topologicalSort at h
  split at h
  · exact absurd h (by simp)
  · exact absurd h (by simp)
  · rename_i st hva
    obtain ⟨hOI, hks, -⟩ := visitAll_ok_props g _ _ _ hva
      ⟨by simp, by simp, by simp⟩
    intro n hcyc
    obtain ⟨c, hc⟩ := transGen_exists_first hcyc
    have hes : (getA g.edges n).isSome := by
      unfold edgeRel depsOfG at hc
      cases hx : getA g.edges n with
      | none => rw [hx] at hc; simp at hc
      | some lst => simp
    have hnn : n ∈ keysA g.nodes :=
      hWF.edges_sub n ((getA_isSome_mem_keysA _ _).mp hes)
    have hnv : n ∈ st.visited := hks n hnn
    have hno : n ∈ st.order := (hOI.1 n).mp hnv
    obtain ⟨-, hlt⟩ := ord_desc g st hOI n n hcyc hno
    omega

/-! ## Depth-first search: a reported circular dependency is a real cycle -/

/-- The gray stack is a chain: each element points (by a recorded edge) to
the element pushed after it. -/
def ChainT (g : Graph) (l : List String) : Prop :=
  List.Chain' (fun x y => edgeRel g y x) l

theorem tempChain_reach (g : Graph) :
    ∀ l, ChainT g l → ∀ x ∈ l, ∀ h0 t0, l = h0 :: t0 →
      Relation.ReflTransGen (edgeRel g) x h0 := by
  intro l
  induction l with
  | nil => intro _ x hx; simp at hx
  | cons h1 t1 ih =>
    intro hch x hx h0 t0 heq
    cases heq
    rcases List.mem_cons.mp hx with rfl | hx'
    · exact Relation.ReflTransGen.refl
    · cases t1 with
      | nil => simp at hx'
      | cons h2 t2 =>
        rw [show ChainT g (h1 :: h2 :: t2) ↔
            edgeRel g h2 h1 ∧ ChainT g (h2 :: t2) from List.chain'_cons] at hch
        exact (ih hch.2 x hx' h2 t2 rfl).tail hch.1

theorem visitList_err_of (g : Graph) (fuel : Nat)
    (hv : ∀ st n e, ChainT g st.temp →
      (st.temp = [] ∨ ∃ h0 t0, st.temp = h0 :: t0 ∧ edgeRel g h0 n) →
      visit g fuel st n = some (.error e) → Relation.TransGen (edgeRel g) e e) :
    ∀ ds st e, ChainT g st.temp →
      (∃ h0 t0, st.temp = h0 :: t0 ∧ ∀ d ∈ ds, edgeRel g h0 d) →
      visitList (visit g fuel) st ds = some (.error e) → Relation.TransGen (edgeRel g) e e := by
  intro ds
  induction ds with
  | nil =>
    intro st e _ _ h
    simp only [visitList] at h
    simp at h
  | cons d ds ih =>
    intro st e hch hent h
    obtain ⟨h0, t0, htemp, hd⟩ := hent
    simp only [visitList] at h
    split at h
    · exact absurd h (by simp)
    · rename_i he
      cases h
      exact hv st d _ hch
        (Or.inr ⟨h0, t0, htemp, hd d (List.mem_cons_self _ _)⟩) he
    · rename_i stm hm
      obtain ⟨htm, -, -, -⟩ := visit_ok g fuel st d stm hm
      refine ih stm e ?_ ⟨h0, t0, ?_, fun x hx => hd x (List.mem_cons_of_mem _ hx)⟩ h
      · unfold ChainT
        rw [htm]
        exact hch
      · rw [htm]
        exact htemp

theorem visit_err (g : Graph) :
    ∀ fuel st n e, ChainT g st.temp →
      (st.temp = [] ∨ ∃ h0 t0, st.temp = h0 :: t0 ∧ edgeRel g h0 n) →
      visit g fuel st n = some (.error e) → Relation.TransGen (edgeRel g) e e := by
  intro fuel
  induction fuel with
  | zero =>
    intro st n e _ _ h
    simp [visit] at h
  | succ fuel ih =>
    intro st n e hch hent h
    simp only [visit] at h
    by_cases h1 : n ∈ st.temp
    · rw [if_pos h1] at h
      cases h
      rcases hent with htemp | ⟨h0, t0, htemp, hedge⟩
      · rw [htemp] at h1
        simp at h1
      · have hr : Relation.ReflTransGen (edgeRel g) n h0 :=
          tempChain_reach g st.temp hch n h1 h0 t0 htemp
        exact Relation.TransGen.tail' hr hedge
    · rw [if_neg h1] at h
      by_cases h2 : n ∈ st.visited
      · rw [if_pos h2] at h
        simp at h
      · rw [if_neg h2] at h
        split at h
        · exact absurd h (by simp)
        · rename_i hvl
          cases h
          refine visitList_err_of g fuel ih _ _ e ?_ ⟨n, st.temp, rfl, ?_⟩ hvl
          · show List.Chain' _ (n :: st.temp)
            cases htemp : st.temp with
            | nil => simp
            | cons h0 t0 =>
              rw [List.chain'_cons]
              constructor
              · rcases hent with hc | ⟨h0', t0', htemp', hedge⟩
                · rw [htemp] at hc
                  simp at hc
                · rw [htemp] at htemp'
                  cases htemp'
                  exact hedge
              · have := hch
                unfold ChainT at this
                rw [htemp] at this
                exact this
          · intro d hd
            exact hd
        · exact absurd h (by simp)

theorem visitAll_err (g : Graph) :
    ∀ ks st e, st.temp = [] → visitAll g st ks = some (.error e) →
      Relation.TransGen (edgeRel g) e e := by
  intro ks
  induction ks with
  | nil =>
    intro st e _ h
    simp only [visitAll] at h
    simp at h
  | cons k ks ih =>
    intro st e htemp h
    simp only [visitAll] at h
    by_cases hk : k ∈ st.visited
    · rw [if_pos hk] at h
      exact ih st e htemp h
    · rw [if_neg hk] at h
      split at h
      · exact absurd h (by simp)
      · rename_i he
        cases h
        refine visit_err g (fuelT g) st k e ?_ (Or.inl htemp) he
        unfold ChainT
        rw [htemp]
        simp
      · rename_i stm hm
        obtain ⟨htm, -, -, -⟩ := visit_ok g (fuelT g) st k stm hm
        exact ih stm e (htm.trans htemp) h

/-- A circular-dependency error names a node that lies on a real cycle of
the recorded graph. -/
theorem topologicalSort_err_cycle (g : Graph) (n : String)
    (h : topologicalSort g = some (.error n)) :
    Relation.TransGen (edgeRel g) n n := by
  unfold topologicalSort at h
  split at h
  · exact absurd h (by simp)
  · rename_i m hva
    cases h
    exact visitAll_err g _ _ n rfl hva
  · exact absurd h (by simp)

/-! ## Depth-first search: the chosen fuel never runs out -/

theorem nodup_sub_length_le (l u : List String) (hnd : l.Nodup)
    (hsub : ∀ x ∈ l, x ∈ u) : l.length ≤ u.dedup.length := by
  have h1 : l.toFinset.card = l.length := List.toFinset_card_of_nodup hnd
  have h2 : u.toFinset.card = u.dedup.length := List.card_toFinset u
  have h3 : l.toFinset ⊆ u.toFinset := by
    intro x hx
    rw [List.mem_toFinset] at hx ⊢
    exact hsub x hx
  have := Finset.card_le_card h3
  omega

theorem mem_universe_of_depsOf (g : Graph) (n d : String) (h : d ∈ depsOfG g n) :
    d ∈ universeNames g := by
  unfold depsOfG at h
  cases hx : getA g.edges n with
  | none => rw [hx] at h; simp at h
  | some lst =>
    rw [hx] at h
    simp only [Option.getD_some] at h
    unfold universeNames
    refine List.mem_append_right _ ?_
    exact List.mem_flatMap.mpr ⟨(n, lst), getA_mem _ _ _ hx, h⟩

theorem visitList_fuel_of (g : Graph) (fuel : Nat)
    (hv : ∀ st n, st.temp.Nodup → (∀ x ∈ st.temp, x ∈ universeNames g) →
      n ∈ universeNames g →
      (universeNames g).dedup.length - st.temp.length < fuel →
      visit g fuel st n ≠ none) :
    ∀ ds st, st.temp.Nodup → (∀ x ∈ st.temp, x ∈ universeNames g) →
      (∀ d ∈ ds, d ∈ universeNames g) →
      (universeNames g).dedup.length - st.temp.length < fuel →
      visitList (visit g fuel) st ds ≠ none := by
  intro ds
  induction ds with
  | nil =>
    intro st _ _ _ _
    simp [visitList]
  | cons d ds ih =>
    intro st hnd hsub hds hb
    simp only [visitList]
    have h1 : visit g fuel st d ≠ none :=
      hv st d hnd hsub (hds d (List.mem_cons_self _ _)) hb
    split
    · rename_i hc
      exact absurd hc h1
    · simp
    · rename_i stm hm
      obtain ⟨htm, -, -, -⟩ := visit_ok g fuel st d stm hm
      refine ih stm ?_ ?_ (fun x hx => hds x (List.mem_cons_of_mem _ hx)) ?_
      · rw [htm]; exact hnd
      · rw [htm]; exact hsub
      · rw [htm]; exact hb

theorem visit_fuel (g : Graph) :
    ∀ fuel st n, st.temp.Nodup → (∀ x ∈ st.temp, x ∈ universeNames g) →
      n ∈ universeNames g →
      (universeNames g).dedup.length - st.temp.length < fuel →
      visit g fuel st n ≠ none := by
  intro fuel
  induction fuel with
  | zero =>
    intro st n hnd hsub hn hb
    omega
  | succ fuel ih =>
    intro st n hnd hsub hn hb
    simp only [visit]
    by_cases h1 : n ∈ st.temp
    · rw [if_pos h1]
      simp
    · rw [if_neg h1]
      by_cases h2 : n ∈ st.visited
      · rw [if_pos h2]
        simp
      · rw [if_neg h2]
        have hnd' : (n :: st.temp).Nodup := List.nodup_cons.mpr ⟨h1, hnd⟩
        have hsub' : ∀ x ∈ n :: st.temp, x ∈ universeNames g := by
          intro x hx
          rcases List.mem_cons.mp hx with rfl | hx'
          · exact hn
          · exact hsub x hx'
        have hlen : (n :: st.temp).length ≤ (universeNames g).dedup.length :=
          nodup_sub_length_le _ _ hnd' hsub'
        have hb' : (universeNames g).dedup.length - (n :: st.temp).length < fuel := by
          simp only [List.length_cons] at hlen ⊢
          omega
        have hvl : visitList (visit g fuel) { st with temp := n :: st.temp } (depsOfG g n) ≠ none := by
          refine visitList_fuel_of g fuel ih _ _ hnd' hsub' ?_ hb'
          intro d hd
          exact mem_universe_of_depsOf g n d hd
        split
        · rename_i hc
          exact absurd hc hvl
        · simp
        · simp

theorem visitAll_fuel (g : Graph) :
    ∀ ks st, st.temp = [] → (∀ k ∈ ks, k ∈ universeNames g) →
      visitAll g st ks ≠ none := by
  intro ks
  induction ks with
  | nil =>
    intro st _ _
    simp [visitAll]
  | cons k ks ih =>
    intro st htemp hks
    simp only [visitAll]
    by_cases hk : k ∈ st.visited
    · rw [if_pos hk]
      exact ih st htemp fun x hx => hks x (List.mem_cons_of_mem _ hx)
    · rw [if_neg hk]
      have h1 : visit g (fuelT g) st k ≠ none := by
        refine visit_fuel g (fuelT g) st k ?_ ?_ (hks k (List.mem_cons_self _ _)) ?_
        · rw [htemp]; simp
        · rw [htemp]; simp
        · rw [htemp]
          simp only [List.length_nil, Nat.sub_zero, fuelT]
          omega
      split
      · rename_i hc
        exact absurd hc h1
      · simp
      · rename_i stm hm
        obtain ⟨htm, -, -, -⟩ := visit_ok g (fuelT g) st k stm hm
        exact ih stm (htm.trans htemp) fun x hx => hks x (List.mem_cons_of_mem _ hx)

theorem topologicalSort_ne_none (g : Graph) : topologicalSort g ≠ none := by
  unfold topologicalSort
  have h : visitAll g ⟨[], [], []⟩ (keysA g.nodes) ≠ none := by
    refine visitAll_fuel g _ _ rfl ?_
    intro k hk
    exact List.mem_append_left _ hk
  split
  · rename_i hc
    exact absurd hc h
  · simp
  · simp

/-! ## Depth-first search: assembled validation facts -/

/-- Whether the eager validation pass succeeds (decidable on concrete
graphs). -/
def topoIsOk (g : Graph) : Bool :=
  match topologicalSort g with
  | some (.ok _) => true
  | _ => false

theorem acyclicE_of_topoIsOk (g : Graph) (hWF : GraphWF g) (h : topoIsOk g = true) :
    AcyclicE g := by
  unfold topoIsOk at h
  split at h
  · rename_i ord hts
    exact topologicalSort_ok_acyclic g hWF ord hts
  · simp at h

theorem topoIsOk_of_acyclicE (g : Graph) (h : AcyclicE g) : topoIsOk g = true := by
  unfold topoIsOk
  split
  · rfl
  · rename_i hne
    cases hts : topologicalSort g with
    | none => exact absurd hts (topologicalSort_ne_none g)
    | some r =>
      cases r with
      | error n => exact absurd (topologicalSort_err_cycle g n hts) (h n)
      | ok ord => exact (hne ord hts).elim

theorem acyclic_topo_ok (g : Graph) (h : AcyclicE g) :
    ∃ ord, topologicalSort g = some (.ok ord) := by
  have := topoIsOk_of_acyclicE g h
  unfold topoIsOk at this
  split at this
  · rename_i ord hts
    exact ⟨ord, hts⟩
  · simp at this

theorem cycle_topo_err (g : Graph) (hWF : GraphWF g) (a : String)
    (hcyc : Relation.TransGen (edgeRel g) a a) :
    ∃ n, topologicalSort g = some (.error n) ∧ Relation.TransGen (edgeRel g) n n := by
  cases hts : topologicalSort g with
  | none => exact absurd hts (topologicalSort_ne_none g)
  | some r =>
    cases r with
    | error n => exact ⟨n, rfl, topologicalSort_err_cycle g n hts⟩
    | ok ord => exact absurd hcyc (topologicalSort_ok_acyclic g hWF ord hts a)

/-! ## Resolution: state evolution facts -/

/-- The declared-dependency graph has no nonempty cycle. -/
def AcyclicD (g : Graph) : Prop := ∀ n, ¬ Relation.TransGen (depEdge g) n n

theorem depEdge_edgeRel (g : Graph) (hWF : GraphWF g) {a b : String}
    (h : depEdge g a b) : edgeRel g a b := by
  obtain ⟨tg, deps, opts, hget, hb⟩ := h
  obtain ⟨d, hd, rfl⟩ := List.mem_map.mp hb
  exact hWF.deps_sub a tg deps opts hget d hd

theorem acyclicD_of_acyclicE (g : Graph) (hWF : GraphWF g) (h : AcyclicE g) :
    AcyclicD g := by
  intro n hc
  exact h n (Relation.TransGen.mono (fun a b => depEdge_edgeRel g hWF) hc)

/-- The layer registered for a name is a singleton-scoped factory. -/
def SFac (g : Graph) (m : String) : Prop :=
  ∃ tg deps opts, getA g.layerMap m = some (.factory tg deps opts) ∧
    effScope opts = .singleton

theorem countBuilds_append (n : String) (l1 l2 : List BuildEvent) :
    countBuilds n (l1 ++ l2) = countBuilds n l1 + countBuilds n l2 := by
  simp [countBuilds, List.filter_append]

/-- Relational facts about one `createService` call from node `n`: the
allocation counter is monotone, the build log grows by events whose names
are declared-dependency-reachable from `n` and whose ids are fresh, and a
singleton memo entry changes only if it was absent and its name is
reachable from `n`. -/
def CSrel (g : Graph) (n : String) (s s' : RState) : Prop :=
  s.counter ≤ s'.counter ∧
  (∃ Δ, s'.buildLog = s.buildLog ++ Δ ∧ ∀ e ∈ Δ,
    Relation.ReflTransGen (depEdge g) n e.name ∧ s.counter ≤ e.id ∧ e.id < s'.counter) ∧
  (∀ m, getA s'.singletons m = getA s.singletons m ∨
    (getA s.singletons m = none ∧ Relation.ReflTransGen (depEdge g) n m))

/-- `CSrel` for a dependency list. -/
def RDrel (g : Graph) (ds : List Tag) (s s' : RState) : Prop :=
  s.counter ≤ s'.counter ∧
  (∃ Δ, s'.buildLog = s.buildLog ++ Δ ∧ ∀ e ∈ Δ,
    (∃ d ∈ ds, Relation.ReflTransGen (depEdge g) d.name e.name) ∧
      s.counter ≤ e.id ∧ e.id < s'.counter) ∧
  (∀ m, getA s'.singletons m = getA s.singletons m ∨
    (getA s.singletons m = none ∧ ∃ d ∈ ds, Relation.ReflTransGen (depEdge g) d.name m))

theorem CSrel_refl (g : Graph) (n : String) (s : RState) : CSrel g n s s :=
  ⟨Nat.le_refl _, ⟨[], by simp, by simp⟩, fun m => Or.inl rfl⟩

theorem RDrel_comp (g : Graph) (d : Tag) (ds : List Tag) (s s1 s2 : RState)
    (h1 : CSrel g d.name s s1) (h2 : RDrel g ds s1 s2) :
    RDrel g (d :: ds) s s2 := by
  obtain ⟨hc1, ⟨Δ1, hl1, he1⟩, hs1⟩ := h1
  obtain ⟨hc2, ⟨Δ2, hl2, he2⟩, hs2⟩ := h2
  refine ⟨hc1.trans hc2, ⟨Δ1 ++ Δ2, ?_, ?_⟩, ?_⟩
  · rw [hl2, hl1, List.append_assoc]
  · intro e he
    rcases List.mem_append.mp he with h | h
    · obtain ⟨hr, hlo, hhi⟩ := he1 e h
      exact ⟨⟨d, List.mem_cons_self _ _, hr⟩, hlo, Nat.lt_of_lt_of_le hhi hc2⟩
    · obtain ⟨⟨d', hd', hr⟩, hlo, hhi⟩ := he2 e h
      exact ⟨⟨d', List.mem_cons_of_mem _ hd', hr⟩, Nat.le_trans hc1 hlo, hhi⟩
  · intro m
    rcases hs2 m with heq | ⟨hnone, d', hd', hr⟩
    · rw [heq]
      rcases hs1 m with heq' | ⟨hnone', hr'⟩
      · exact Or.inl heq'
      · exact Or.inr ⟨hnone', d, List.mem_cons_self _ _, hr'⟩
    · rcases hs1 m with heq' | ⟨hnone', hr'⟩
      · rw [heq'] at hnone
        exact Or.inr ⟨hnone, d', List.mem_cons_of_mem _ hd', hr⟩
      · exact Or.inr ⟨hnone', d, List.mem_cons_self _ _, hr'⟩

theorem RDrel_nil (g : Graph) (s : RState) : RDrel g [] s s :=
  ⟨Nat.le_refl _, ⟨[], by simp, by simp⟩, fun m => Or.inl rfl⟩

theorem resolveDeps_rel_of (g : Graph) (fuel : Nat)
    (hv : ∀ tag s, CSrel g tag.name s (createService g fuel tag s).2) :
    ∀ ds s, RDrel g ds s (resolveDeps (createService g fuel) ds s).2 := by
  intro ds
  induction ds with
  | nil =>
    intro s
    simp only [resolveDeps]
    exact RDrel_nil g s
  | cons d ds ih =>
    intro s
    simp only [resolveDeps]
    split
    · rename_i e s1 hcs
      have h1 := hv d s
      rw [hcs] at h1
      refine ⟨h1.1, ?_, ?_⟩
      · obtain ⟨Δ, hl, he⟩ := h1.2.1
        refine ⟨Δ, hl, fun e' he' => ?_⟩
        obtain ⟨hr, hlo, hhi⟩ := he e' he'
        exact ⟨⟨d, List.mem_cons_self _ _, hr⟩, hlo, hhi⟩
      · intro m
        rcases h1.2.2 m with heq | ⟨hnone, hr⟩
        · exact Or.inl heq
        · exact Or.inr ⟨hnone, d, List.mem_cons_self _ _, hr⟩
    · rename_i v s1 hcs
      have h1 := hv d s
      rw [hcs] at h1
      have h2 := ih s1
      split
      · rename_i e s2 hrd
        rw [hrd] at h2
        exact RDrel_comp g d ds s s1 s2 h1 h2
      · rename_i vs s2 hrd
        rw [hrd] at h2
        exact RDrel_comp g d ds s s1 s2 h1 h2

theorem createService_rel (g : Graph) :
    ∀ fuel tag s, CSrel g tag.name s (createService g fuel tag s).2 := by
  intro fuel
  induction fuel with
  | zero =>
    intro tag s
    simp only [createService]
    exact CSrel_refl g _ s
  | succ fuel ih =>
    intro tag s
    simp only [createService]
    split
    · exact CSrel_refl g _ s
    · rename_i hmemo
      split
      · exact CSrel_refl g _ s
      · rename_i tg v hlay
        refine ⟨Nat.le_refl _, ⟨[], by simp, by simp⟩, ?_⟩
        intro m
        by_cases hm : m = tag.name
        · subst hm
          exact Or.inr ⟨hmemo, Relation.ReflTransGen.refl⟩
        · refine Or.inl ?_
          exact getA_setA_ne _ _ _ _ hm
      · rename_i tg deps opts hlay
        have hrd := resolveDeps_rel_of g fuel ih deps s
        split
        · rename_i e s1 hres
          rw [hres] at hrd
          refine ⟨hrd.1, ?_, ?_⟩
          · obtain ⟨Δ, hl, he⟩ := hrd.2.1
            refine ⟨Δ, hl, fun e' he' => ?_⟩
            obtain ⟨⟨d, hd, hr⟩, hlo, hhi⟩ := he e' he'
            refine ⟨Relation.ReflTransGen.head ?_ hr, hlo, hhi⟩
            exact ⟨tg, deps, opts, hlay, List.mem_map.mpr ⟨d, hd, rfl⟩⟩
          · intro m
            rcases hrd.2.2 m with heq | ⟨hnone, d, hd, hr⟩
            · exact Or.inl heq
            · refine Or.inr ⟨hnone, Relation.ReflTransGen.head ?_ hr⟩
              exact ⟨tg, deps, opts, hlay, List.mem_map.mpr ⟨d, hd, rfl⟩⟩
        · rename_i args s1 hres
          rw [hres] at hrd
          dsimp only at hrd
          obtain ⟨hc1, ⟨Δ, hl, he⟩, hsing⟩ := hrd
          have hreach : ∀ e' ∈ Δ ++
              [(⟨tag.name, s1.counter, args⟩ : BuildEvent)],
              Relation.ReflTransGen (depEdge g) tag.name e'.name ∧
              s.counter ≤ e'.id ∧ e'.id < s1.counter + 1 := by
            intro e' he'
            rcases List.mem_append.mp he' with h | h
            · obtain ⟨⟨d, hd, hr⟩, hlo, hhi⟩ := he e' h
              refine ⟨Relation.ReflTransGen.head ?_ hr, hlo, by omega⟩
              exact ⟨tg, deps, opts, hlay, List.mem_map.mpr ⟨d, hd, rfl⟩⟩
            · rw [List.mem_singleton] at h
              subst h
              exact ⟨Relation.ReflTransGen.refl, hc1, Nat.lt_succ_self _⟩
          have hsing2 : ∀ m, getA (setA s1.singletons tag.name
                (Value.obj s1.counter)) m = getA s.singletons m ∨
              (getA s.singletons m = none ∧
                Relation.ReflTransGen (depEdge g) tag.name m) := by
            intro m
            by_cases hm : m = tag.name
            · subst hm
              exact Or.inr ⟨hmemo, Relation.ReflTransGen.refl⟩
            · rw [getA_setA_ne _ _ _ _ hm]
              rcases hsing m with heq | ⟨hnone, d, hd, hr⟩
              · exact Or.inl heq
              · refine Or.inr ⟨hnone, Relation.ReflTransGen.head ?_ hr⟩
                exact ⟨tg, deps, opts, hlay, List.mem_map.mpr ⟨d, hd, rfl⟩⟩
          split
          · dsimp only
            refine ⟨Nat.le_succ_of_le hc1,
              ⟨Δ ++ [⟨tag.name, s1.counter, args⟩], ?_, hreach⟩, hsing2⟩
            rw [hl, List.append_assoc]
          · dsimp only
            refine ⟨Nat.le_succ_of_le hc1,
              ⟨Δ ++ [⟨tag.name, s1.counter, args⟩], ?_, hreach⟩, ?_⟩
            · rw [hl, List.append_assoc]
            · intro m
              rcases hsing m with heq | ⟨hnone, d, hd, hr⟩
              · exact Or.inl heq
              · refine Or.inr ⟨hnone, Relation.ReflTransGen.head ?_ hr⟩
                exact ⟨tg, deps, opts, hlay, List.mem_map.mpr ⟨d, hd, rfl⟩⟩

/-! ## Resolution: a ServiceNotFound error names a reachable missing layer -/

theorem resolveDeps_err_of (g : Graph) (fuel : Nat)
    (hv : ∀ tag s m, (createService g fuel tag s).1 = .error (.serviceNotFound m) →
      getA g.layerMap m = none ∧ Relation.ReflTransGen (depEdge g) tag.name m) :
    ∀ ds s m, (resolveDeps (createService g fuel) ds s).1 = .error (.serviceNotFound m) →
      getA g.layerMap m = none ∧
        ∃ d ∈ ds, Relation.ReflTransGen (depEdge g) d.name m := by
  intro ds
  induction ds with
  | nil =>
    intro s m h
    simp only [resolveDeps] at h
    simp at h
  | cons d ds ih =>
    intro s m h
    simp only [resolveDeps] at h
    split at h
    · rename_i e s1 hcs
      dsimp only at h
      cases h
      have := hv d s m (by rw [hcs])
      exact ⟨this.1, d, List.mem_cons_self _ _, this.2⟩
    · rename_i v s1 hcs
      split at h
      · rename_i e s2 hrd
        dsimp only at h
        cases h
        have := ih s1 m (by rw [hrd])
        exact ⟨this.1, this.2.imp fun d' hd' => ⟨List.mem_cons_of_mem _ hd'.1, hd'.2⟩⟩
      · rename_i vs s2 hrd
        simp at h

theorem createService_err (g : Graph) :
    ∀ fuel tag s m, (createService g fuel tag s).1 = .error (.serviceNotFound m) →
      getA g.layerMap m = none ∧ Relation.ReflTransGen (depEdge g) tag.name m := by
  intro fuel
  induction fuel with
  | zero =>
    intro tag s m h
    simp [createService] at h
  | succ fuel ih =>
    intro tag s m h
    simp only [createService] at h
    split at h
    · simp at h
    · rename_i hmemo
      split at h
      · rename_i hlay
        dsimp only at h
        cases h
        exact ⟨hlay, Relation.ReflTransGen.refl⟩
      · simp at h
      · rename_i tg deps opts hlay
        split at h
        · rename_i e s1 hres
          dsimp only at h
          cases h
          obtain ⟨hm, d, hd, hr⟩ := resolveDeps_err_of g fuel ih deps s m (by rw [hres])
          refine ⟨hm, Relation.ReflTransGen.head ?_ hr⟩
          exact ⟨tg, deps, opts, hlay, List.mem_map.mpr ⟨d, hd, rfl⟩⟩
        · rename_i args s1 hres
          split at h <;> simp at h

/-! ## Resolution: the chosen fuel suffices, and grounded tags resolve -/

theorem resolveDeps_total_of (g : Graph) (fuel : Nat)
    (hv : ∀ (seen : List String) (tag : Tag) (s : RState),
      (∀ x ∈ seen, Relation.TransGen (depEdge g) x tag.name) →
      seen.Nodup → (∀ x ∈ seen, x ∈ keysA g.nodes) →
      (keysA g.nodes).length + 1 - seen.length ≤ fuel →
      (createService g fuel tag s).1 ≠ .error .outOfFuel ∧
        (GroundedD g tag.name → ∃ v, (createService g fuel tag s).1 = .ok v)) :
    ∀ (ds : List Tag) (seen : List String) (s : RState),
      (∀ x ∈ seen, ∀ d ∈ ds, Relation.TransGen (depEdge g) x d.name) →
      seen.Nodup → (∀ x ∈ seen, x ∈ keysA g.nodes) →
      (keysA g.nodes).length + 1 - seen.length ≤ fuel →
      (resolveDeps (createService g fuel) ds s).1 ≠ .error .outOfFuel ∧
        ((∀ d ∈ ds, GroundedD g d.name) → ∃ vs, (resolveDeps (createService g fuel) ds s).1 = .ok vs) := by
  intro ds
  induction ds with
  | nil =>
    intro seen s _ _ _ _
    simp [resolveDeps]
  | cons d ds ih =>
    intro seen s hreach hnd hsub hb
    have hd1 := hv seen d s (fun x hx => hreach x hx d (List.mem_cons_self _ _)) hnd hsub hb
    simp only [resolveDeps]
    split
    · rename_i e s1 hcs
      rw [hcs] at hd1
      dsimp only at hd1 ⊢
      constructor
      · intro hc
        cases hc
        exact hd1.1 rfl
      · intro hg
        obtain ⟨v, hv'⟩ := hd1.2 (hg d (List.mem_cons_self _ _))
        simp at hv'
    · rename_i v s1 hcs
      have hds := ih seen s1
        (fun x hx d' hd' => hreach x hx d' (List.mem_cons_of_mem _ hd')) hnd hsub hb
      split
      · rename_i e s2 hrd
        rw [hrd] at hds
        dsimp only at hds ⊢
        constructor
        · intro hc
          cases hc
          exact hds.1 rfl
        · intro hg
          obtain ⟨vs, hvs⟩ := hds.2 fun d' hd' => hg d' (List.mem_cons_of_mem _ hd')
          simp at hvs
      · rename_i vs s2 hrd
        simp

theorem createService_total (g : Graph) (hWF : GraphWF g) (hAc : AcyclicD g) :
    ∀ (fuel : Nat) (seen : List String) (tag : Tag) (s : RState),
      (∀ x ∈ seen, Relation.TransGen (depEdge g) x tag.name) →
      seen.Nodup → (∀ x ∈ seen, x ∈ keysA g.nodes) →
      (keysA g.nodes).length + 1 - seen.length ≤ fuel →
      (createService g fuel tag s).1 ≠ .error .outOfFuel ∧
        (GroundedD g tag.name → ∃ v, (createService g fuel tag s).1 = .ok v) := by
  intro fuel
  induction fuel with
  | zero =>
    intro seen tag s hreach hnd hsub hb
    have hlen : seen.length ≤ (keysA g.nodes).length := by
      have : seen.length = seen.toFinset.card := (List.toFinset_card_of_nodup hnd).symm
      have hsubf : seen.toFinset ⊆ (keysA g.nodes).toFinset := by
        intro x hx
        rw [List.mem_toFinset] at hx ⊢
        exact hsub x hx
      have h2 := Finset.card_le_card hsubf
      have h3 := List.toFinset_card_le (keysA g.nodes)
      omega
    omega
  | succ fuel ih =>
    intro seen tag s hreach hnd hsub hb
    simp only [createService]
    split
    · simp
    · rename_i hmemo
      split
      · rename_i hlay
        dsimp only
        constructor
        · simp
        · intro hg
          have := hg tag.name Relation.ReflTransGen.refl
          rw [hlay] at this
          simp at this
      · dsimp only
        constructor
        · simp
        · intro _
          exact ⟨_, rfl⟩
      · rename_i tg deps opts hlay
        have hname : tag.name ∉ seen := by
          intro hc
          exact hAc tag.name (hreach tag.name hc)
        have hkey : tag.name ∈ keysA g.nodes := by
          rw [← getA_isSome_mem_keysA]
          refine (hWF.layer_nodes tag.name).mp ?_
          rw [hlay]
          rfl
        have hrd := resolveDeps_total_of g fuel (ih) deps (tag.name :: seen) s
          (by
            intro x hx d hd
            have hstep : depEdge g tag.name d.name :=
              ⟨tg, deps, opts, hlay, List.mem_map.mpr ⟨d, hd, rfl⟩⟩
            rcases List.mem_cons.mp hx with rfl | hx'
            · exact Relation.TransGen.single hstep
            · exact (hreach x hx').tail hstep)
          (List.nodup_cons.mpr ⟨hname, hnd⟩)
          (by
            intro x hx
            rcases List.mem_cons.mp hx with rfl | hx'
            · exact hkey
            · exact hsub x hx')
          (by
            simp only [List.length_cons]
            omega)
        split
        · rename_i e s1 hres
          rw [hres] at hrd
          dsimp only at hrd ⊢
          constructor
          · intro hc
            cases hc
            exact hrd.1 rfl
          · intro hg
            obtain ⟨vs, hvs⟩ := hrd.2 (by
              intro d hd m hm
              refine hg m (Relation.ReflTransGen.head ?_ hm)
              exact ⟨tg, deps, opts, hlay, List.mem_map.mpr ⟨d, hd, rfl⟩⟩)
            simp at hvs
        · rename_i args s1 hres
          split <;> simp

/-- The fuel chosen by `getService` never runs out, and a grounded tag
always resolves successfully. -/
theorem createService_csFuel (g : Graph) (hWF : GraphWF g) (hAc : AcyclicD g)
    (tag : Tag) (s : RState) :
    (createService g (csFuel g) tag s).1 ≠ .error .outOfFuel ∧
      (GroundedD g tag.name → ∃ v, (createService g (csFuel g) tag s).1 = .ok v) := by
  refine createService_total g hWF hAc (csFuel g) [] tag s (by simp) (by simp) (by simp) ?_
  simp [csFuel]

/-! ## Resolution: per-call facts -/

theorem resolveDeps_rel (g : Graph) (fuel : Nat) (ds : List Tag) (s : RState) :
    RDrel g ds s (resolveDeps (createService g fuel) ds s).2 :=
  resolveDeps_rel_of g fuel (createService_rel g fuel) ds s

/-- The layer for a name is a value layer or a singleton-scoped factory:
names whose resolved instance is memoized. -/
def ValueOrSFac (g : Graph) (m : String) : Prop :=
  (∃ tg v, getA g.layerMap m = some (.value tg v)) ∨ SFac g m

/-- Effective scope recorded for a resolved leaf layer. -/
def slScope : ServiceLayer → Scope
  | .value _ _ => .singleton
  | .factory _ _ opts => effScope opts

/-- Effective dispose-hook presence recorded for a resolved leaf layer. -/
def slDispose : ServiceLayer → Bool
  | .value _ _ => false
  | .factory _ _ opts => effDispose opts

/-- A successful resolution of a memoizable (value or singleton-factory)
tag leaves its instance in the singleton memo. -/
theorem createService_ok_memo (g : Graph) :
    ∀ fuel tag s v s', createService g fuel tag s = (.ok v, s') →
      ValueOrSFac g tag.name → getA s'.singletons tag.name = some v := by
  intro fuel tag s v s' h hvs
  match fuel with
  | 0 => simp [createService] at h
  | fuel + 1 =>
    simp only [createService] at h
    split at h
    · rename_i w hmemo
      cases h
      exact hmemo
    · rename_i hmemo
      split at h
      · simp at h
      · rename_i tg pv hlay
        cases h
        exact getA_setA_self _ _ _
      · rename_i tg deps opts hlay
        split at h
        · simp at h
        · rename_i args s1 hres
          split at h
          · cases h
            exact getA_setA_self _ _ _
          · rename_i hscope
            cases h
            rcases hvs with ⟨tg', v', hlay'⟩ | ⟨tg', deps', opts', hlay', hsc⟩
            · rw [hlay] at hlay'
              simp at hlay'
            · rw [hlay] at hlay'
              cases hlay'
              exact absurd hsc hscope

/-- A successful resolution with a cold memo records a service definition
carrying the produced instance and the layer's effective scope and dispose
flag. -/
theorem createService_miss_ok_record (g : Graph) :
    ∀ fuel tag s v s', getA s.singletons tag.name = none →
      createService g fuel tag s = (.ok v, s') →
      ∃ sl, getA g.layerMap tag.name = some sl ∧
        getA s'.services tag.name =
          some ⟨tag, v, slScope sl, slDispose sl⟩ := by
  intro fuel tag s v s' hmemo h
  match fuel with
  | 0 => simp [createService] at h
  | fuel + 1 =>
    simp only [createService] at h
    split at h
    · rename_i w hm
      rw [hmemo] at hm
      simp at hm
    · rename_i hm
      split at h
      · simp at h
      · rename_i tg pv hlay
        cases h
        exact ⟨.value tg pv, hlay, getA_setA_self _ _ _⟩
      · rename_i tg deps opts hlay
        split at h
        · simp at h
        · rename_i args s1 hres
          split at h <;> cases h <;>
            exact ⟨.factory tg deps opts, hlay, getA_setA_self _ _ _⟩

theorem countBuilds_eq_zero (n : String) (Δ : List BuildEvent)
    (h : ∀ e ∈ Δ, e.name ≠ n) : countBuilds n Δ = 0 := by
  simp only [countBuilds, List.length_eq_zero, List.filter_eq_nil_iff]
  intro e he
  simp [h e he]

/-- A successful factory build with a cold memo allocates a fresh object and
records exactly one new build of its own tag name. -/
theorem createService_build_count (g : Graph) (hAc : AcyclicD g) :
    ∀ fuel tag s v s' tg deps opts, getA s.singletons tag.name = none →
      getA g.layerMap tag.name = some (.factory tg deps opts) →
      createService g fuel tag s = (.ok v, s') →
      (∃ c, v = .obj c ∧ s.counter ≤ c ∧ c < s'.counter) ∧
        countBuilds tag.name s'.buildLog = countBuilds tag.name s.buildLog + 1 := by
  intro fuel tag s v s' tg deps opts hmemo hlay h
  match fuel with
  | 0 => simp [createService] at h
  | fuel + 1 =>
    simp only [createService] at h
    split at h
    · rename_i w hm
      rw [hmemo] at hm
      simp at hm
    · rename_i hm
      split at h
      · rename_i hlay'
        rw [hlay] at hlay'
        simp at hlay'
      · rename_i tg' pv hlay'
        rw [hlay] at hlay'
        simp at hlay'
      · rename_i tg' deps' opts' hlay'
        rw [hlay] at hlay'
        cases hlay'
        split at h
        · simp at h
        · rename_i args s1 hres
          have hrd := resolveDeps_rel g fuel deps s
          rw [hres] at hrd
          dsimp only at hrd
          obtain ⟨hc1, ⟨Δ, hl, he⟩, -⟩ := hrd
          have hΔ : countBuilds tag.name Δ = 0 := by
            refine countBuilds_eq_zero _ _ ?_
            intro e heΔ hne
            obtain ⟨⟨d, hd, hr⟩, -, -⟩ := he e heΔ
            rw [hne] at hr
            refine hAc tag.name (Relation.TransGen.head' ?_ hr)
            exact ⟨tg, deps, opts, hlay, List.mem_map.mpr ⟨d, hd, rfl⟩⟩
          have hcount : countBuilds tag.name
              (s1.buildLog ++ [(⟨tag.name, s1.counter, args⟩ : BuildEvent)]) =
              countBuilds tag.name s.buildLog + 1 := by
            rw [hl, List.append_assoc, countBuilds_append, countBuilds_append, hΔ]
            simp [countBuilds]
          split at h <;> cases h <;>
            exact ⟨⟨s1.counter, rfl, hc1, Nat.lt_succ_self _⟩, hcount⟩

/-- Values produced for a dependency list: positional, and memoizable
dependencies end up in the singleton memo with exactly the injected value. -/
theorem resolveDeps_ok_vals (g : Graph) :
    ∀ fuel ds s vs s', resolveDeps (createService g fuel) ds s = (.ok vs, s') →
      vs.length = ds.length ∧
      ∀ i d, ds.get? i = some d → ∃ w, vs.get? i = some w ∧
        (ValueOrSFac g d.name → getA s'.singletons d.name = some w) := by
  intro fuel ds
  induction ds with
  | nil =>
    intro s vs s' h
    simp only [resolveDeps] at h
    cases h
    simp
  | cons d ds ih =>
    intro s vs s' h
    simp only [resolveDeps] at h
    split at h
    · simp at h
    · rename_i w s1 hcs
      split at h
      · simp at h
      · rename_i ws s2 hrd
        cases h
        obtain ⟨hlen, hvals⟩ := ih s1 ws _ hrd
        refine ⟨by simp [hlen], ?_⟩
        intro i d' hd'
        match i with
        | 0 =>
          simp only [List.get?] at hd'
          cases hd'
          refine ⟨w, rfl, ?_⟩
          intro hvs
          have h1 : getA s1.singletons d.name = some w :=
            createService_ok_memo g fuel d s w s1 hcs hvs
          have hrel := resolveDeps_rel g fuel ds s1
          rw [hrd] at hrel
          dsimp only at hrel
          rcases hrel.2.2 d.name with heq | ⟨hnone, -⟩
          · rw [heq]
            exact h1
          · rw [h1] at hnone
            simp at hnone
        | i + 1 =>
          simp only [List.get?] at hd' ⊢
          exact hvals i d' hd'

/-! ## Resolution: runtime state invariants -/

theorem mem_setA {α : Type} (l : List (String × α)) (n : String) (v : α) (p : String × α)
    (h : p ∈ setA l n v) : p = (n, v) ∨ p ∈ l := by
  induction l with
  | nil =>
    simp only [setA] at h
    rcases List.mem_singleton.mp h with rfl
    exact Or.inl rfl
  | cons q t ih =>
    obtain ⟨k, w⟩ := q
    by_cases hk : k = n
    · subst hk
      simp only [setA, if_pos rfl] at h
      rcases List.mem_cons.mp h with rfl | hm
      · exact Or.inl rfl
      · exact Or.inr (List.mem_cons_of_mem _ hm)
    · simp only [setA, if_neg hk] at h
      rcases List.mem_cons.mp h with rfl | hm
      · exact Or.inr (List.mem_cons_self _ _)
      · rcases ih hm with hp | hp
        · exact Or.inl hp
        · exact Or.inr (List.mem_cons_of_mem _ hp)

theorem grounded_value (g : Graph) (n : String) (tg : Tag) (v : Nat)
    (hlay : getA g.layerMap n = some (.value tg v)) : GroundedD g n := by
  intro m hm
  rcases Relation.ReflTransGen.cases_head hm with rfl | ⟨b, hb, -⟩
  · simp [hlay]
  · obtain ⟨tg', deps', opts', hlay', -⟩ := hb
    rw [hlay] at hlay'
    simp at hlay'

theorem grounded_factory (g : Graph) (n : String) (tg : Tag) (deps : List Tag)
    (opts : Option LayerOptions)
    (hlay : getA g.layerMap n = some (.factory tg deps opts))
    (hdeps : ∀ d ∈ deps, GroundedD g d.name) : GroundedD g n := by
  intro m hm
  rcases Relation.ReflTransGen.cases_head hm with rfl | ⟨b, hb, hbm⟩
  · simp [hlay]
  · obtain ⟨tg', deps', opts', hlay', hbmem⟩ := hb
    rw [hlay] at hlay'
    cases hlay'
    obtain ⟨d, hd, rfl⟩ := List.mem_map.mp hbmem
    exact hdeps d hd m hbm

/-- Invariants of the runtime state that hold for every container and are
preserved by every `get`: the service map has unique keys, each record is
stored under its own tag name, records with a dispose hook (and records of
factory-backed services) correspond to actual builds, and the singleton
memo only holds memoizable, fully grounded names. -/
structure StInv (g : Graph) (s : RState) : Prop where
  services_nodup : (keysA s.services).Nodup
  record_key : ∀ p ∈ s.services, p.2.tag.name = p.1
  dispose_built : ∀ p ∈ s.services, p.2.dispose = true →
    ∃ e ∈ s.buildLog, e.name = p.1
  factory_built : ∀ p ∈ s.services,
    (∃ tg deps opts, getA g.layerMap p.1 = some (.factory tg deps opts)) →
    ∃ e ∈ s.buildLog, e.name = p.1
  singletons_scope : ∀ m, (getA s.singletons m).isSome → ValueOrSFac g m
  singletons_grounded : ∀ m, (getA s.singletons m).isSome → GroundedD g m

theorem initState_StInv (g : Graph) : StInv g initState := by
  refine ⟨?_, ?_, ?_, ?_, ?_, ?_⟩ <;> simp [initState, keysA, getA]

theorem resolveDeps_StInv_of (g : Graph) (fuel : Nat)
    (hv : ∀ tag s, StInv g s → StInv g (createService g fuel tag s).2 ∧
      (∀ v, (createService g fuel tag s).1 = .ok v → GroundedD g tag.name)) :
    ∀ ds s, StInv g s → StInv g (resolveDeps (createService g fuel) ds s).2 ∧
      (∀ vs, (resolveDeps (createService g fuel) ds s).1 = .ok vs → ∀ d ∈ ds, GroundedD g d.name) := by
  intro ds
  induction ds with
  | nil =>
    intro s hS
    simp only [resolveDeps]
    exact ⟨hS, by simp⟩
  | cons d ds ih =>
    intro s hS
    simp only [resolveDeps]
    split
    · rename_i e s1 hcs
      have h1 := hv d s hS
      rw [hcs] at h1
      exact ⟨h1.1, by simp⟩
    · rename_i v s1 hcs
      have h1 := hv d s hS
      rw [hcs] at h1
      dsimp only at h1
      have h2 := ih s1 h1.1
      split
      · rename_i e s2 hrd
        rw [hrd] at h2
        exact ⟨h2.1, by simp⟩
      · rename_i vs s2 hrd
        rw [hrd] at h2
        dsimp only at h2
        refine ⟨h2.1, ?_⟩
        intro ws hws d' hd'
        rcases List.mem_cons.mp hd' with rfl | hd''
        · exact h1.2 v rfl
        · exact h2.2 vs rfl d' hd''

theorem createService_StInv (g : Graph) :
    ∀ fuel tag s, StInv g s → StInv g (createService g fuel tag s).2 ∧
      (∀ v, (createService g fuel tag s).1 = .ok v → GroundedD g tag.name) := by
  intro fuel
  induction fuel with
  | zero =>
    intro tag s hS
    simp only [createService]
    exact ⟨hS, by simp⟩
  | succ fuel ih =>
    intro tag s hS
    simp only [createService]
    split
    · rename_i w hmemo
      refine ⟨hS, ?_⟩
      intro v hv
      cases hv
      exact hS.singletons_grounded tag.name (by simp [hmemo])
    · rename_i hmemo
      split
      · exact ⟨hS, by simp⟩
      · rename_i tg pv hlay
        dsimp only
        have hgr : GroundedD g tag.name := grounded_value g tag.name tg pv hlay
        refine ⟨⟨?_, ?_, ?_, ?_, ?_, ?_⟩, ?_⟩
        · exact keysA_setA_nodup _ _ _ hS.services_nodup
        · intro p hp
          rcases mem_setA _ _ _ _ hp with rfl | hp'
          · rfl
          · exact hS.record_key p hp'
        · intro p hp hd
          rcases mem_setA _ _ _ _ hp with rfl | hp'
          · simp at hd
          · exact hS.dispose_built p hp' hd
        · intro p hp hf
          rcases mem_setA _ _ _ _ hp with rfl | hp'
          · obtain ⟨tg', deps', opts', hlay'⟩ := hf
            rw [hlay] at hlay'
            simp at hlay'
          · exact hS.factory_built p hp' hf
        · intro m hm
          by_cases hmn : m = tag.name
          · subst hmn
            exact Or.inl ⟨tg, pv, hlay⟩
          · rw [getA_setA_ne _ _ _ _ hmn] at hm
            exact hS.singletons_scope m hm
        · intro m hm
          by_cases hmn : m = tag.name
          · subst hmn
            exact hgr
          · rw [getA_setA_ne _ _ _ _ hmn] at hm
            exact hS.singletons_grounded m hm
        · intro v hv
          exact hgr
      · rename_i tg deps opts hlay
        have hrdS := resolveDeps_StInv_of g fuel ih deps s hS
        split
        · rename_i e s1 hres
          rw [hres] at hrdS
          exact ⟨hrdS.1, by simp⟩
        · rename_i args s1 hres
          rw [hres] at hrdS
          dsimp only at hrdS
          obtain ⟨hS1, hgd⟩ := hrdS
          have hgr : GroundedD g tag.name :=
            grounded_factory g tag.name tg deps opts hlay
              (hgd args rfl)
          have hlog : ∀ e ∈ s1.buildLog,
              e ∈ s1.buildLog ++ [(⟨tag.name, s1.counter, args⟩ : BuildEvent)] :=
            fun e he => List.mem_append_left _ he
          have hown : (⟨tag.name, s1.counter, args⟩ : BuildEvent) ∈
              s1.buildLog ++ [(⟨tag.name, s1.counter, args⟩ : BuildEvent)] :=
            List.mem_append_right _ (List.mem_singleton.mpr rfl)
          have hcore : ∀ (useSing : Bool), (useSing = true → effScope opts = .singleton) →
              StInv g
                { services := setA s1.services tag.name
                    ⟨tag, Value.obj s1.counter, effScope opts, effDispose opts⟩,
                  singletons := cond useSing
                      (setA s1.singletons tag.name (Value.obj s1.counter))
                      s1.singletons,
                  counter := s1.counter + 1,
                  buildLog := s1.buildLog ++ [⟨tag.name, s1.counter, args⟩] } := by
            intro useSing hus
            refine ⟨?_, ?_, ?_, ?_, ?_, ?_⟩
            · exact keysA_setA_nodup _ _ _ hS1.services_nodup
            · intro p hp
              rcases mem_setA _ _ _ _ hp with rfl | hp'
              · rfl
              · exact hS1.record_key p hp'
            · intro p hp hd
              rcases mem_setA _ _ _ _ hp with rfl | hp'
              · exact ⟨_, hown, rfl⟩
              · obtain ⟨e, he, hen⟩ := hS1.dispose_built p hp' hd
                exact ⟨e, hlog e he, hen⟩
            · intro p hp hf
              rcases mem_setA _ _ _ _ hp with rfl | hp'
              · exact ⟨_, hown, rfl⟩
              · obtain ⟨e, he, hen⟩ := hS1.factory_built p hp' hf
                exact ⟨e, hlog e he, hen⟩
            · intro m hm
              cases useSing with
              | false =>
                simp only [cond_false] at hm
                exact hS1.singletons_scope m hm
              | true =>
                simp only [cond_true] at hm
                by_cases hmn : m = tag.name
                · subst hmn
                  exact Or.inr ⟨tg, deps, opts, hlay, hus rfl⟩
                · rw [getA_setA_ne _ _ _ _ hmn] at hm
                  exact hS1.singletons_scope m hm
            · intro m hm
              cases useSing with
              | false =>
                simp only [cond_false] at hm
                exact hS1.singletons_grounded m hm
              | true =>
                simp only [cond_true] at hm
                by_cases hmn : m = tag.name
                · subst hmn
                  exact hgr
                · rw [getA_setA_ne _ _ _ _ hmn] at hm
                  exact hS1.singletons_grounded m hm
          split
          · rename_i hscope
            exact ⟨hcore true fun _ => hscope, fun v hv => hgr⟩
          · rename_i hscope
            exact ⟨hcore false (by simp), fun v hv => hgr⟩

/-! ## Resolution: build-count and injected-argument invariants -/

/-- Invariants tying the build log to the singleton memo, preserved by
every `get` on an acyclic graph: a singleton-scoped factory builds at most
once, and it has built exactly once precisely when it is memoized; and
every recorded build of a factory received, for each memoizable declared
dependency, exactly the instance currently memoized for that dependency. -/
structure MemoInv (g : Graph) (s : RState) : Prop where
  builds : ∀ m, SFac g m → countBuilds m s.buildLog ≤ 1 ∧
    (countBuilds m s.buildLog = 1 ↔ (getA s.singletons m).isSome)
  events : ∀ e ∈ s.buildLog, ∀ tg deps opts,
    getA g.layerMap e.name = some (.factory tg deps opts) →
    ∀ i d, deps.get? i = some d → ValueOrSFac g d.name →
      ∃ w, e.args.get? i = some w ∧ getA s.singletons d.name = some w

theorem initState_MemoInv (g : Graph) : MemoInv g initState := by
  constructor
  · intro m _
    simp [initState, countBuilds, getA]
  · intro e he
    simp [initState] at he

theorem resolveDeps_MemoInv_of (g : Graph) (fuel : Nat)
    (hv : ∀ tag s, MemoInv g s → MemoInv g (createService g fuel tag s).2) :
    ∀ ds s, MemoInv g s → MemoInv g (resolveDeps (createService g fuel) ds s).2 := by
  intro ds
  induction ds with
  | nil =>
    intro s hM
    simp only [resolveDeps]
    exact hM
  | cons d ds ih =>
    intro s hM
    simp only [resolveDeps]
    split
    · rename_i e s1 hcs
      have h1 := hv d s hM
      rw [hcs] at h1
      exact h1
    · rename_i v s1 hcs
      have h1 := hv d s hM
      rw [hcs] at h1
      dsimp only at h1
      have h2 := ih s1 h1
      split
      · rename_i e s2 hrd
        rw [hrd] at h2
        exact h2
      · rename_i vs s2 hrd
        rw [hrd] at h2
        exact h2

theorem createService_MemoInv (g : Graph) (hAc : AcyclicD g) :
    ∀ fuel tag s, MemoInv g s → MemoInv g (createService g fuel tag s).2 := by
  intro fuel
  induction fuel with
  | zero =>
    intro tag s hM
    simp only [createService]
    exact hM
  | succ fuel ih =>
    intro tag s hM
    simp only [createService]
    split
    · exact hM
    · rename_i hmemo
      split
      · exact hM
      · rename_i tg pv hlay
        dsimp only
        constructor
        · intro m hm
          by_cases hmn : m = tag.name
          · subst hmn
            obtain ⟨tg', deps', opts', hlay', -⟩ := hm
            rw [hlay] at hlay'
            simp at hlay'
          · rw [getA_setA_ne _ _ _ _ hmn]
            exact hM.builds m hm
        · intro e he tg' deps' opts' hlay' i d hd hvs
          obtain ⟨w, hw, hsing⟩ := hM.events e he tg' deps' opts' hlay' i d hd hvs
          refine ⟨w, hw, ?_⟩
          by_cases hmn : d.name = tag.name
          · rw [hmn, hmemo] at hsing
            simp at hsing
          · rw [getA_setA_ne _ _ _ _ hmn]
            exact hsing
      · rename_i tg deps opts hlay
        split
        · rename_i e s1 hres
          have h1 := resolveDeps_MemoInv_of g fuel (ih) deps s hM
          rw [hres] at h1
          exact h1
        · rename_i args s1 hres
          have hM1 := resolveDeps_MemoInv_of g fuel (ih) deps s hM
          rw [hres] at hM1
          dsimp only at hM1
          have hrd := resolveDeps_rel g fuel deps s
          rw [hres] at hrd
          dsimp only at hrd
          obtain ⟨hc1, ⟨Δ, hl, he⟩, hsing⟩ := hrd
          have hedge : ∀ d ∈ deps, depEdge g tag.name d.name := by
            intro d hd
            exact ⟨tg, deps, opts, hlay, List.mem_map.mpr ⟨d, hd, rfl⟩⟩
          have hnone1 : getA s1.singletons tag.name = none := by
            rcases hsing tag.name with heq | ⟨-, d, hd, hr⟩
            · rw [heq, hmemo]
            · exact absurd (Relation.TransGen.head' (hedge d hd) hr) (hAc tag.name)
          have hΔ : countBuilds tag.name Δ = 0 := by
            refine countBuilds_eq_zero _ _ ?_
            intro e' heΔ hne
            obtain ⟨⟨d, hd, hr⟩, -, -⟩ := he e' heΔ
            rw [hne] at hr
            exact hAc tag.name (Relation.TransGen.head' (hedge d hd) hr)
          have hcount1 : ∀ m, countBuilds m
              (s1.buildLog ++ [(⟨tag.name, s1.counter, args⟩ : BuildEvent)]) =
              countBuilds m s1.buildLog + (if m = tag.name then 1 else 0) := by
            intro m
            rw [countBuilds_append]
            by_cases hmn : m = tag.name
            · subst hmn
              simp [countBuilds]
            · have hz : countBuilds m [(⟨tag.name, s1.counter, args⟩ : BuildEvent)] = 0 := by
                refine countBuilds_eq_zero _ _ ?_
                intro e' he'
                rw [List.mem_singleton] at he'
                subst he'
                exact fun h => hmn h.symm
              rw [hz, if_neg hmn]
          have hcnt1 : countBuilds tag.name s1.buildLog =
              countBuilds tag.name s.buildLog := by
            rw [hl, countBuilds_append, hΔ]
            omega
          have hvals := resolveDeps_ok_vals g fuel deps s args s1 hres
          have hownargs : ∀ i d, deps.get? i = some d → ValueOrSFac g d.name →
              ∃ w, args.get? i = some w ∧ getA s1.singletons d.name = some w := by
            intro i d hd hvs
            obtain ⟨w, hw, hs⟩ := hvals.2 i d hd
            exact ⟨w, hw, hs hvs⟩
          split
          · rename_i hscope
            dsimp only
            constructor
            · intro m hsf
              rw [hcount1]
              by_cases hmn : m = tag.name
              · subst hmn
                have hcnt0 : countBuilds tag.name s.buildLog = 0 := by
                  obtain ⟨hle, hiff⟩ := hM.builds tag.name hsf
                  have hne1 : ¬ countBuilds tag.name s.buildLog = 1 := by
                    intro hc
                    have := hiff.mp hc
                    rw [hmemo] at this
                    simp at this
                  omega
                rw [if_pos rfl, hcnt1, hcnt0, getA_setA_self]
                simp
              · rw [if_neg hmn, getA_setA_ne _ _ _ _ hmn]
                simpa using hM1.builds m hsf
            · intro e' he' tg' deps' opts' hlay' i d hd hvs
              rcases List.mem_append.mp he' with hold | hnew
              · obtain ⟨w, hw, hs⟩ := hM1.events e' hold tg' deps' opts' hlay' i d hd hvs
                refine ⟨w, hw, ?_⟩
                have hdn : d.name ≠ tag.name := by
                  intro hc
                  rw [hc, hnone1] at hs
                  simp at hs
                rw [getA_setA_ne _ _ _ _ hdn]
                exact hs
              · rw [List.mem_singleton] at hnew
                subst hnew
                simp only at hlay'
                rw [hlay] at hlay'
                cases hlay'
                obtain ⟨w, hw, hs⟩ := hownargs i d hd hvs
                refine ⟨w, hw, ?_⟩
                have hdn : d.name ≠ tag.name := by
                  intro hc
                  have hdm : d ∈ deps := List.get?_mem hd
                  have hstep := hedge d hdm
                  rw [hc] at hstep
                  exact hAc tag.name (Relation.TransGen.single hstep)
                rw [getA_setA_ne _ _ _ _ hdn]
                exact hs
          · rename_i hscope
            dsimp only
            constructor
            · intro m hsf
              rw [hcount1]
              by_cases hmn : m = tag.name
              · subst hmn
                obtain ⟨tg', deps', opts', hlay', hsc⟩ := hsf
                rw [hlay] at hlay'
                cases hlay'
                exact absurd hsc hscope
              · rw [if_neg hmn]
                simpa using hM1.builds m hsf
            · intro e' he' tg' deps' opts' hlay' i d hd hvs
              rcases List.mem_append.mp he' with hold | hnew
              · exact hM1.events e' hold tg' deps' opts' hlay' i d hd hvs
              · rw [List.mem_singleton] at hnew
                subst hnew
                simp only at hlay'
                rw [hlay] at hlay'
                cases hlay'
                exact hownargs i d hd hvs

/-! ## Container-level wrappers -/

theorem getService_StInv (g : Graph) (tag : Tag) (s : RState) (h : StInv g s) :
    StInv g (getService g tag s).2 := by
  unfold getService
  split
  · split
    · exact h
    · exact (createService_StInv g (csFuel g) tag s h).1
  · exact (createService_StInv g (csFuel g) tag s h).1

theorem getService_MemoInv (g : Graph) (hAc : AcyclicD g) (tag : Tag) (s : RState)
    (h : MemoInv g s) : MemoInv g (getService g tag s).2 := by
  unfold getService
  split
  · split
    · exact h
    · exact createService_MemoInv g hAc (csFuel g) tag s h
  · exact createService_MemoInv g hAc (csFuel g) tag s h

theorem runGets_StInv (g : Graph) :
    ∀ ts s, StInv g s → StInv g (runGets g s ts) := by
  intro ts
  induction ts with
  | nil => exact fun s h => h
  | cons t ts ih =>
    intro s h
    exact ih _ (getService_StInv g t s h)

theorem runGets_MemoInv (g : Graph) (hAc : AcyclicD g) :
    ∀ ts s, MemoInv g s → MemoInv g (runGets g s ts) := by
  intro ts
  induction ts with
  | nil => exact fun s h => h
  | cons t ts ih =>
    intro s h
    exact ih _ (getService_MemoInv g hAc t s h)

theorem getService_grounded_ok (g : Graph) (hWF : GraphWF g) (hAc : AcyclicD g)
    (tag : Tag) (s : RState) (hg : GroundedD g tag.name) :
    ∃ v, (getService g tag s).1 = .ok v := by
  unfold getService
  split
  · rename_i rec hrec
    split
    · exact ⟨rec.inst, rfl⟩
    · exact (createService_csFuel g hWF hAc tag s).2 hg
  · exact (createService_csFuel g hWF hAc tag s).2 hg

theorem createContainer_ok_elim (t : Layer) (g : Graph) (h : createContainer t = .ok g) :
    g = buildGraph t ∧ AcyclicE (buildGraph t) := by
  unfold createContainer at h
  dsimp only at h
  cases hts : topologicalSort (buildGraph t) with
  | none =>
    rw [hts] at h
    simp at h
  | some r =>
    cases r with
    | error n =>
      rw [hts] at h
      simp at h
    | ok ord =>
      rw [hts] at h
      have hAcE := topologicalSort_ok_acyclic (buildGraph t) (buildGraph_wf t) ord hts
      refine ⟨?_, hAcE⟩
      by_cases hra : rootAllowsDuplicates t = true
      · rw [if_pos hra] at h
        cases h
        rfl
      · rw [if_neg hra] at h
        by_cases hde : (duplicateNames (buildGraph t)).isEmpty = true
        · rw [if_pos hde] at h
          cases h
          rfl
        · rw [if_neg hde] at h
          simp at h

theorem createContainer_ok_of (t : Layer) (hAcE : AcyclicE (buildGraph t))
    (hdup : rootAllowsDuplicates t = true ∨ duplicateNames (buildGraph t) = []) :
    createContainer t = .ok (buildGraph t) := by
  obtain ⟨ord, hts⟩ := acyclic_topo_ok (buildGraph t) hAcE
  unfold createContainer
  dsimp only
  rw [hts]
  rcases hdup with hra | hde
  · rw [if_pos hra]
  · by_cases hra : rootAllowsDuplicates t = true
    · rw [if_pos hra]
    · rw [if_neg hra, if_pos (by simp [hde])]

/-! ## Helpers for concrete instantiations -/

/-- All tag names declared as dependencies by any registered factory. -/
def allDepNames (g : Graph) : List String :=
  g.layerMap.flatMap fun p =>
    match p.2 with
    | .factory _ deps _ => deps.map (·.name)
    | .value _ _ => []

theorem depEdge_mem_allDepNames (g : Graph) (a b : String) (h : depEdge g a b) :
    b ∈ allDepNames g := by
  obtain ⟨tg, deps, opts, hget, hb⟩ := h
  unfold allDepNames
  refine List.mem_flatMap.mpr ⟨(a, .factory tg deps opts), getA_mem _ _ _ hget, ?_⟩
  simpa using hb

theorem grounded_of_closed (g : Graph) (n : String)
    (h1 : (getA g.layerMap n).isSome)
    (h2 : ∀ x ∈ allDepNames g, (getA g.layerMap x).isSome) : GroundedD g n := by
  intro m hm
  induction hm with
  | refl => exact h1
  | tail hab hbc ih => exact h2 _ (depEdge_mem_allDepNames g _ _ hbc)

theorem rootAllows_of_anyAllowDup (t : Layer) (h : anyAllowDup t = false) :
    rootAllowsDuplicates t = false := by
  cases t with
  | value tag v => rfl
  | factory tag deps opts => rfl
  | merged ls mo =>
    cases mo with
    | none => rfl
    | some m =>
      simp only [anyAllowDup, Option.map_some, Option.getD_some,
        Bool.or_eq_false_iff] at h
      simpa [rootAllowsDuplicates] using h.1

theorem mem_duplicateNames (g : Graph) (hnd : (keysA g.tagCounts).Nodup) (x : String) :
    x ∈ duplicateNames g ↔ ∃ c, getA g.tagCounts x = some c ∧ 1 < c := by
  unfold duplicateNames
  rw [List.mem_filterMap]
  constructor
  · rintro ⟨⟨k, c⟩, hmem, hif⟩
    by_cases hc : c > 1
    · rw [if_pos hc] at hif
      cases hif
      exact ⟨c, getA_of_mem_nodup _ _ _ hnd hmem, hc⟩
    · rw [if_neg hc] at hif
      simp at hif
  · rintro ⟨c, hget, hc⟩
    exact ⟨(x, c), getA_mem _ _ _ hget, by simp [hc]⟩

theorem lastWith_name : ∀ (L : List ServiceLayer) (n : String) (sl : ServiceLayer),
    lastWith L n = some sl → leafName sl = n := by
  intro L
  induction L with
  | nil =>
    intro n sl h
    simp [lastWith] at h
  | cons sl0 L ih =>
    intro n sl h
    simp only [lastWith] at h
    cases hl : lastWith L n with
    | some r =>
      rw [hl] at h
      cases h
      exact ih n _ hl
    | none =>
      rw [hl] at h
      by_cases hn : leafName sl0 = n
      · rw [if_pos hn] at h
        cases h
        exact hn
      · rw [if_neg hn] at h
        simp at h

theorem countBuilds_pos (n : String) (log : List BuildEvent)
    (h : countBuilds n log ≠ 0) : ∃ e ∈ log, e.name = n := by
  unfold countBuilds at h
  cases hf : List.filter (fun e => e.name = n) log with
  | nil => rw [hf] at h; simp at h
  | cons e rest =>
    have hmem : e ∈ List.filter (fun e => e.name = n) log := by
      rw [hf]
      exact List.mem_cons_self _ _
    obtain ⟨hmem', hp⟩ := List.mem_filter.mp hmem
    exact ⟨e, hmem', by simpa using hp⟩

theorem getService_log_mono (g : Graph) (tag : Tag) (s : RState) :
    ∃ Δ, (getService g tag s).2.buildLog = s.buildLog ++ Δ := by
  unfold getService
  split
  · split
    · exact ⟨[], by simp⟩
    · obtain ⟨-, ⟨Δ, hl, -⟩, -⟩ := createService_rel g (csFuel g) tag s
      exact ⟨Δ, hl⟩
  · obtain ⟨-, ⟨Δ, hl, -⟩, -⟩ := createService_rel g (csFuel g) tag s
    exact ⟨Δ, hl⟩

theorem createContainer_ok_facts (t : Layer) (g : Graph)
    (h : createContainer t = .ok g) :
    g = buildGraph t ∧ GraphWF g ∧ AcyclicD g := by
  obtain ⟨rfl, hAcE⟩ := createContainer_ok_elim t g h
  exact ⟨rfl, buildGraph_wf t, acyclicD_of_acyclicE _ (buildGraph_wf t) hAcE⟩

/-! ## Example layer trees used to instantiate the claims -/

/-- Two factories depending on each other: a dependency cycle. -/
def cycTree : Layer :=
  .merged [.factory ⟨"A"⟩ [⟨"B"⟩] none, .factory ⟨"B"⟩ [⟨"A"⟩] none] none

/-- A duplicated value tag with `allowDuplicates` only on a nested merge. -/
def dupNestedTree : Layer :=
  .merged [.value ⟨"A"⟩ 1,
    .merged [.value ⟨"A"⟩ 2] (some ⟨some true⟩)] none

/-- A duplicated value tag with `allowDuplicates` on the root merge. -/
def dupRootTree : Layer :=
  .merged [.value ⟨"A"⟩ 1, .value ⟨"A"⟩ 2] (some ⟨some true⟩)

/-- A duplicated value tag with no `allowDuplicates` anywhere. -/
def dupPlainTree : Layer :=
  .merged [.value ⟨"A"⟩ 1, .value ⟨"A"⟩ 2] none

/-- A cycle plus a duplicated tag, no `allowDuplicates`. -/
def cycDupTree : Layer :=
  .merged [.factory ⟨"A"⟩ [⟨"B"⟩] none, .factory ⟨"B"⟩ [⟨"A"⟩] none,
    .value ⟨"C"⟩ 1, .value ⟨"C"⟩ 2] none

/-- One singleton factory with no dependencies. -/
def singFTree : Layer := .merged [.factory ⟨"A"⟩ [] none] none

/-- A transient factory reachable along two paths from the root service. -/
def diamondTree : Layer :=
  .merged [.factory ⟨"X"⟩ [⟨"A"⟩, ⟨"B"⟩] none,
    .factory ⟨"A"⟩ [⟨"T"⟩] none,
    .factory ⟨"B"⟩ [⟨"T"⟩] none,
    .factory ⟨"T"⟩ [] (some ⟨some .transient, false⟩)] none

/-- One transient factory with a dispose hook. -/
def trDispTree : Layer :=
  .merged [.factory ⟨"T"⟩ [] (some ⟨some .transient, true⟩)] none

/-- A factory whose single declared dependency is never merged in, next to
an independent resolvable value. -/
def missTree : Layer :=
  .merged [.factory ⟨"X"⟩ [⟨"Z"⟩] none, .value ⟨"Y"⟩ 7] none

/-- Two factories sharing a singleton dependency. -/
def sharedTree : Layer :=
  .merged [.factory ⟨"X"⟩ [⟨"Z"⟩] none,
    .factory ⟨"Y"⟩ [⟨"Z"⟩] none,
    .factory ⟨"Z"⟩ [] none] none

/-! ## Claims -/

/-- C2: for every layer tree whose flattened dependency graph contains a
cycle among registered tags, `createContainer` fails at construction time
with a CircularDependency error whose reported name lies on a cycle (the
gray node re-entered in traversal order); no container is returned. -/
theorem C2_cycle_fails (t : Layer) (a : String)
    (hcyc : Relation.TransGen (edgeRel (buildGraph t)) a a) :
    ∃ n, createContainer t = .error (.circular n) ∧
      Relation.TransGen (edgeRel (buildGraph t)) n n := by
  obtain ⟨n, hts, hn⟩ := cycle_topo_err (buildGraph t) (buildGraph_wf t) a hcyc
  refine ⟨n, ?_, hn⟩
  unfold createContainer
  dsimp only
  rw [hts]

/-- Witness for C2 at the concrete two-node cycle. -/
theorem C2_cycle_fails_witness :
    ∃ n, createContainer cycTree = .error (.circular n) ∧
      Relation.TransGen (edgeRel (buildGraph cycTree)) n n :=
  C2_cycle_fails cycTree "A"
    (Relation.TransGen.tail
      (Relation.TransGen.single
        (show edgeRel (buildGraph cycTree) "A" "B" by decide))
      (show edgeRel (buildGraph cycTree) "B" "A" by decide))

/-- C10: for every layer tree containing both a dependency cycle and a
duplicated tag name without `allowDuplicates`, `createContainer` fails with
CircularDependency rather than DuplicateTag: the cycle check runs first. -/
theorem C10_cycle_before_duplicate (t : Layer) (a n0 : String)
    (hcyc : Relation.TransGen (edgeRel (buildGraph t)) a a)
    (hdup : 2 ≤ leafCount (leaves t) n0)
    (hnad : anyAllowDup t = false) :
    (∃ n, createContainer t = .error (.circular n)) ∧
      ∀ names, createContainer t ≠ .error (.duplicateTag names) := by
  obtain ⟨n, hts, -⟩ := cycle_topo_err (buildGraph t) (buildGraph_wf t) a hcyc
  have hres : createContainer t = .error (.circular n) := by
    unfold createContainer
    dsimp only
    rw [hts]
  refine ⟨⟨n, hres⟩, ?_⟩
  intro names hc
  rw [hres] at hc
  simp at hc

/-- Witness for C10 at a concrete cycle-plus-duplicate tree. -/
theorem C10_cycle_before_duplicate_witness :
    (∃ n, createContainer cycDupTree = .error (.circular n)) ∧
      ∀ names, createContainer cycDupTree ≠ .error (.duplicateTag names) :=
  C10_cycle_before_duplicate cycDupTree "A" "C"
    (Relation.TransGen.tail
      (Relation.TransGen.single
        (show edgeRel (buildGraph cycDupTree) "A" "B" by decide))
      (show edgeRel (buildGraph cycDupTree) "B" "A" by decide))
    (by decide) (by decide)

/-- C3: for every acyclic layer tree with a tag name registered more than
once and `allowDuplicates` not requested anywhere, `createContainer` fails
with a DuplicateTag error enumerating exactly the duplicated tag names. -/
theorem C3_duplicate_fails (t : Layer) (n0 : String)
    (hAcE : AcyclicE (buildGraph t))
    (hnad : anyAllowDup t = false)
    (hdup : 2 ≤ leafCount (leaves t) n0) :
    createContainer t = .error (.duplicateTag (duplicateNames (buildGraph t))) ∧
      duplicateNames (buildGraph t) ≠ [] ∧
      (∀ x, x ∈ duplicateNames (buildGraph t) ↔ 2 ≤ leafCount (leaves t) x) := by
  have hnd : (keysA (buildGraph t).tagCounts).Nodup := (buildGraph_wf t).counts_nodup
  have hchar : ∀ x, x ∈ duplicateNames (buildGraph t) ↔ 2 ≤ leafCount (leaves t) x := by
    intro x
    rw [mem_duplicateNames _ hnd]
    constructor
    · rintro ⟨c, hget, hc⟩
      rw [buildGraph_tagCounts] at hget
      by_cases h0 : leafCount (leaves t) x = 0
      · rw [if_pos h0] at hget
        simp at hget
      · rw [if_neg h0] at hget
        cases hget
        omega
    · intro hx
      refine ⟨leafCount (leaves t) x, ?_, by omega⟩
      rw [buildGraph_tagCounts, if_neg (by omega)]
  have hne : duplicateNames (buildGraph t) ≠ [] := by
    intro hc
    have := (hchar n0).mpr hdup
    rw [hc] at this
    simp at this
  obtain ⟨ord, hts⟩ := acyclic_topo_ok (buildGraph t) hAcE
  refine ⟨?_, hne, hchar⟩
  unfold createContainer
  dsimp only
  rw [hts, if_neg (by simp [rootAllows_of_anyAllowDup t hnad]),
    if_neg (by simpa using hne)]

/-- Witness for C3 at a concrete duplicated value tag. -/
theorem C3_duplicate_fails_witness :
    createContainer dupPlainTree =
      .error (.duplicateTag (duplicateNames (buildGraph dupPlainTree))) ∧
    duplicateNames (buildGraph dupPlainTree) ≠ [] ∧
    (∀ x, x ∈ duplicateNames (buildGraph dupPlainTree) ↔
      2 ≤ leafCount (leaves dupPlainTree) x) :=
  C3_duplicate_fails dupPlainTree "A"
    (acyclicE_of_topoIsOk _ (buildGraph_wf dupPlainTree) (by decide))
    (by decide) (by decide)

/-- C4 as frozen is false: with `allowDuplicates` requested only on a
nested merge node (not the root), `createContainer` still fails with
DuplicateTag, because only the root layer's merge options are consulted. -/
theorem C4_counterexample :
    createContainer dupNestedTree = .error (.duplicateTag ["A"]) := by decide

/-- C4 (amended): `allowDuplicates` is honored only when requested on the
root merge node.  With it on the root and an acyclic graph, construction
succeeds, the registered layer for every name is the last-registered leaf
carrying that name, and `get` for a value-backed winner returns that
layer's value. -/
theorem C4_last_registered_wins (t : Layer)
    (hra : rootAllowsDuplicates t = true)
    (hAcE : AcyclicE (buildGraph t)) :
    createContainer t = .ok (buildGraph t) ∧
      (∀ n, getA (buildGraph t).layerMap n = lastWith (leaves t) n) ∧
      (∀ n tg v, lastWith (leaves t) n = some (.value tg v) →
        (getService (buildGraph t) tg initState).1 = .ok (.prim v)) := by
  refine ⟨createContainer_ok_of t hAcE (Or.inl hra), buildGraph_layerMap t, ?_⟩
  intro n tg v hlast
  have hname : tg.name = n := lastWith_name (leaves t) n _ hlast
  have hlay : getA (buildGraph t).layerMap tg.name = some (.value tg v) := by
    rw [buildGraph_layerMap, hname, hlast]
  show (getService (buildGraph t) tg ⟨[], [], 0, []⟩).1 = .ok (.prim v)
  unfold getService
  rw [show getA ([] : List (String × ServiceDefinition)) tg.name = none from rfl]
  show (createService (buildGraph t) (csFuel (buildGraph t)) tg ⟨[], [], 0, []⟩).1 = _
  have h2 : csFuel (buildGraph t) =
      ((keysA (buildGraph t).nodes).length + 1) + 1 := rfl
  rw [h2]
  simp only [createService]
  rw [show getA ([] : List (String × Value)) tg.name = none from rfl]
  rw [hlay]

/-- Witness for the amended C4 at a concrete duplicated value tag with
root-level `allowDuplicates`. -/
theorem C4_last_registered_wins_witness :
    createContainer dupRootTree = .ok (buildGraph dupRootTree) ∧
      (∀ n, getA (buildGraph dupRootTree).layerMap n =
        lastWith (leaves dupRootTree) n) ∧
      (∀ n tg v, lastWith (leaves dupRootTree) n = some (.value tg v) →
        (getService (buildGraph dupRootTree) tg initState).1 = .ok (.prim v)) :=
  C4_last_registered_wins dupRootTree (by decide)
    (acyclicE_of_topoIsOk _ (buildGraph_wf dupRootTree) (by decide))

/-- C1: for every container and singleton-scoped factory tag registered in
it (with all transitively declared dependencies registered), calling `get`
twice on a fresh container returns the identical instance both times, does
not change the state on the second call, and the factory builds exactly
once across the two calls. -/
theorem C1_singleton_get_twice (t : Layer) (g : Graph) (tag tg : Tag)
    (deps : List Tag) (opts : Option LayerOptions)
    (hok : createContainer t = .ok g)
    (hlay : getA g.layerMap tag.name = some (.factory tg deps opts))
    (hscope : effScope opts = .singleton)
    (hg : GroundedD g tag.name) :
    ∃ v,
      (getService g tag initState).1 = .ok v ∧
      (getService g tag (getService g tag initState).2).1 = .ok v ∧
      (getService g tag (getService g tag initState).2).2 =
        (getService g tag initState).2 ∧
      countBuilds tag.name (getService g tag initState).2.buildLog = 1 := by
  obtain ⟨-, hWF, hAc⟩ := createContainer_ok_facts t g hok
  have hget1 : getService g tag initState = createService g (csFuel g) tag initState := rfl
  obtain ⟨v, hv⟩ := (createService_csFuel g hWF hAc tag initState).2 hg
  have hpair : createService g (csFuel g) tag initState =
      (.ok v, (createService g (csFuel g) tag initState).2) := by
    rw [← hv]
  obtain ⟨sl, hsl, hrec⟩ := createService_miss_ok_record g (csFuel g) tag initState v
    (createService g (csFuel g) tag initState).2 rfl hpair
  rw [hlay] at hsl
  cases hsl
  have hscope' : slScope (.factory tg deps opts) = Scope.singleton := hscope
  have hget2 : getService g tag (createService g (csFuel g) tag initState).2 =
      (.ok v, (createService g (csFuel g) tag initState).2) := by
    unfold getService
    rw [hrec]
    dsimp only
    rw [hscope']
    simp
  have hM1 : MemoInv g (createService g (csFuel g) tag initState).2 :=
    createService_MemoInv g hAc (csFuel g) tag initState (initState_MemoInv g)
  have hmem : getA (createService g (csFuel g) tag initState).2.singletons tag.name =
      some v :=
    createService_ok_memo g (csFuel g) tag initState v _ hpair
      (Or.inr ⟨tg, deps, opts, hlay, hscope⟩)
  obtain ⟨hle, hiff⟩ := hM1.builds tag.name ⟨tg, deps, opts, hlay, hscope⟩
  refine ⟨v, ?_, ?_, ?_, ?_⟩
  · rw [hget1, hpair]
  · rw [hget1, hget2]
  · rw [hget1, hget2]
  · rw [hget1]
    exact hiff.mpr (by simp [hmem])

/-- Witness for C1 at a concrete dependency-free singleton factory. -/
theorem C1_singleton_get_twice_witness :
    ∃ v,
      (getService (buildGraph singFTree) ⟨"A"⟩ initState).1 = .ok v ∧
      (getService (buildGraph singFTree) ⟨"A"⟩
        (getService (buildGraph singFTree) ⟨"A"⟩ initState).2).1 = .ok v ∧
      (getService (buildGraph singFTree) ⟨"A"⟩
        (getService (buildGraph singFTree) ⟨"A"⟩ initState).2).2 =
        (getService (buildGraph singFTree) ⟨"A"⟩ initState).2 ∧
      countBuilds "A" (getService (buildGraph singFTree) ⟨"A"⟩ initState).2.buildLog = 1 :=
  C1_singleton_get_twice singFTree (buildGraph singFTree) ⟨"A"⟩ ⟨"A"⟩ [] none
    (by decide) (by decide) (by decide)
    (grounded_of_closed (buildGraph singFTree) "A" (by decide) (by decide))

/-- C5: for every acyclic, duplicate-admissible layer tree with a factory
that transitively declares a dependency tag never merged in, construction
still succeeds; a `get` that transitively requires the missing tag fails
with ServiceNotFound naming a missing required tag; and `get` for fully
registered tags still succeeds on the resulting container state. -/
theorem C5_missing_dependency (t : Layer) (X : Tag) (M : String)
    (hAcE : AcyclicE (buildGraph t))
    (hdup : rootAllowsDuplicates t = true ∨ duplicateNames (buildGraph t) = [])
    (hmiss : getA (buildGraph t).layerMap M = none)
    (hreach : Relation.ReflTransGen (depEdge (buildGraph t)) X.name M) :
    createContainer t = .ok (buildGraph t) ∧
      (∃ m, (getService (buildGraph t) X initState).1 = .error (.serviceNotFound m) ∧
        getA (buildGraph t).layerMap m = none ∧
        Relation.ReflTransGen (depEdge (buildGraph t)) X.name m) ∧
      (∀ Y : Tag, GroundedD (buildGraph t) Y.name →
        ∃ v, (getService (buildGraph t) Y
          (getService (buildGraph t) X initState).2).1 = .ok v) := by
  have hWF := buildGraph_wf t
  have hAc := acyclicD_of_acyclicE _ hWF hAcE
  have hget1 : getService (buildGraph t) X initState =
      createService (buildGraph t) (csFuel (buildGraph t)) X initState := rfl
  refine ⟨createContainer_ok_of t hAcE hdup, ?_, ?_⟩
  · rw [hget1]
    cases hres : (createService (buildGraph t) (csFuel (buildGraph t)) X initState).1 with
    | ok v =>
      have hgr := (createService_StInv (buildGraph t) (csFuel (buildGraph t)) X
        initState (initState_StInv (buildGraph t))).2 v hres
      have := hgr M hreach
      rw [hmiss] at this
      simp at this
    | error e =>
      cases e with
      | outOfFuel =>
        exact absurd hres (createService_csFuel (buildGraph t) hWF hAc X initState).1
      | serviceNotFound m =>
        obtain ⟨hm1, hm2⟩ := createService_err (buildGraph t)
          (csFuel (buildGraph t)) X initState m hres
        exact ⟨m, rfl, hm1, hm2⟩
  · intro Y hgY
    exact getService_grounded_ok (buildGraph t) hWF hAc Y _ hgY

/-- Witness for C5 at a concrete factory with an unregistered dependency. -/
theorem C5_missing_dependency_witness :
    createContainer missTree = .ok (buildGraph missTree) ∧
      (∃ m, (getService (buildGraph missTree) ⟨"X"⟩ initState).1 =
          .error (.serviceNotFound m) ∧
        getA (buildGraph missTree).layerMap m = none ∧
        Relation.ReflTransGen (depEdge (buildGraph missTree)) "X" m) ∧
      (∀ Y : Tag, GroundedD (buildGraph missTree) Y.name →
        ∃ v, (getService (buildGraph missTree) Y
          (getService (buildGraph missTree) ⟨"X"⟩ initState).2).1 = .ok v) :=
  C5_missing_dependency missTree ⟨"X"⟩ "Z"
    (acyclicE_of_topoIsOk _ (buildGraph_wf missTree) (by decide))
    (Or.inr (by decide)) (by decide)
    (Relation.ReflTransGen.single
      ⟨⟨"X"⟩, [⟨"Z"⟩], none, by decide, by decide⟩)

/-- C6 as frozen is false: a transient tag reachable along two dependency
paths within a single top-level `get` has its factory executed twice in
that one call, not once. -/
theorem C6_counterexample :
    createContainer diamondTree = .ok (buildGraph diamondTree) ∧
      countBuilds "T"
        ((getService (buildGraph diamondTree) ⟨"X"⟩ initState).2.buildLog) = 2 := by
  decide

/-- C6 (amended): two direct `get` calls for a transient-scoped tag on a
fresh container return two instances with distinct object identities, and
the tag's factory runs exactly once per direct `get` (twice in total);
within a single `get` resolution tree, however, a transient builds once
per dependency path, not once per call (see the counterexample). -/
theorem C6_transient_distinct (t : Layer) (g : Graph) (tag tg : Tag)
    (deps : List Tag) (opts : Option LayerOptions)
    (hok : createContainer t = .ok g)
    (hlay : getA g.layerMap tag.name = some (.factory tg deps opts))
    (hscope : effScope opts = .transient)
    (hg : GroundedD g tag.name) :
    ∃ c1 c2,
      (getService g tag initState).1 = .ok (.obj c1) ∧
      (getService g tag (getService g tag initState).2).1 = .ok (.obj c2) ∧
      c1 ≠ c2 ∧
      countBuilds tag.name
        (getService g tag (getService g tag initState).2).2.buildLog = 2 := by
  obtain ⟨-, hWF, hAc⟩ := createContainer_ok_facts t g hok
  have hget1 : getService g tag initState = createService g (csFuel g) tag initState := rfl
  obtain ⟨v1, hv1⟩ := (createService_csFuel g hWF hAc tag initState).2 hg
  have hpair1 : createService g (csFuel g) tag initState =
      (.ok v1, (createService g (csFuel g) tag initState).2) := by
    rw [← hv1]
  obtain ⟨⟨c1, hc1v, hc1lo, hc1hi⟩, hcount1⟩ :=
    createService_build_count g hAc (csFuel g) tag initState v1
      (createService g (csFuel g) tag initState).2 tg deps opts rfl hlay hpair1
  have hS1 : StInv g (createService g (csFuel g) tag initState).2 :=
    (createService_StInv g (csFuel g) tag initState (initState_StInv g)).1
  obtain ⟨sl, hsl, hrec⟩ := createService_miss_ok_record g (csFuel g) tag initState v1
    (createService g (csFuel g) tag initState).2 rfl hpair1
  rw [hlay] at hsl
  cases hsl
  have hscope' : slScope (.factory tg deps opts) = Scope.transient := hscope
  have hmemo1 : getA (createService g (csFuel g) tag initState).2.singletons tag.name =
      none := by
    cases hx : getA (createService g (csFuel g) tag initState).2.singletons tag.name with
    | none => rfl
    | some w =>
      have := hS1.singletons_scope tag.name (by simp [hx])
      rcases this with ⟨tg', v', hlay'⟩ | ⟨tg', deps', opts', hlay', hsc⟩
      · rw [hlay] at hlay'
        simp at hlay'
      · rw [hlay] at hlay'
        cases hlay'
        rw [hscope] at hsc
        simp at hsc
  have hget2 : getService g tag (createService g (csFuel g) tag initState).2 =
      createService g (csFuel g) tag (createService g (csFuel g) tag initState).2 := by
    unfold getService
    rw [hrec]
    dsimp only
    rw [hscope']
    simp
  obtain ⟨v2, hv2⟩ := (createService_csFuel g hWF hAc tag
    (createService g (csFuel g) tag initState).2).2 hg
  have hpair2 : createService g (csFuel g) tag
      (createService g (csFuel g) tag initState).2 =
      (.ok v2, (createService g (csFuel g) tag
        (createService g (csFuel g) tag initState).2).2) := by
    rw [← hv2]
  obtain ⟨⟨c2, hc2v, hc2lo, hc2hi⟩, hcount2⟩ :=
    createService_build_count g hAc (csFuel g) tag
      (createService g (csFuel g) tag initState).2 v2 _ tg deps opts hmemo1 hlay hpair2
  have hcinit : countBuilds tag.name initState.buildLog = 0 := rfl
  refine ⟨c1, c2, ?_, ?_, ?_, ?_⟩
  · rw [hget1, hpair1, hc1v]
  · rw [hget1, hget2, hpair2, hc2v]
  · have : c1 < c2 := Nat.lt_of_lt_of_le hc1hi hc2lo
    omega
  · rw [hget1, hget2]
    rw [hcount2, hcount1, hcinit]

/-- Witness for the amended C6 at a concrete dependency-free transient
factory. -/
theorem C6_transient_distinct_witness :
    ∃ c1 c2,
      (getService (buildGraph trDispTree) ⟨"T"⟩ initState).1 = .ok (.obj c1) ∧
      (getService (buildGraph trDispTree) ⟨"T"⟩
        (getService (buildGraph trDispTree) ⟨"T"⟩ initState).2).1 = .ok (.obj c2) ∧
      c1 ≠ c2 ∧
      countBuilds "T"
        ((getService (buildGraph trDispTree) ⟨"T"⟩
          (getService (buildGraph trDispTree) ⟨"T"⟩ initState).2).2.buildLog) = 2 :=
  C6_transient_distinct trDispTree (buildGraph trDispTree) ⟨"T"⟩ ⟨"T"⟩ []
    (some ⟨some .transient, true⟩) (by decide) (by decide) (by decide)
    (grounded_of_closed (buildGraph trDispTree) "T" (by decide) (by decide))

/-! ## Disposal lemmas -/

theorem mem_disposeLog (s : RState)
    (h1 : (keysA s.services).Nodup)
    (h2 : ∀ p ∈ s.services, p.2.tag.name = p.1) (n : String) (v : Value) :
    (n, v) ∈ (disposeContainer s).1 ↔
      ∃ rec, getA s.services n = some rec ∧ rec.dispose = true ∧ rec.inst = v := by
  unfold disposeContainer
  dsimp only
  rw [List.mem_filterMap]
  constructor
  · rintro ⟨p, hp, hf⟩
    by_cases hd : p.2.dispose
    · rw [if_pos hd] at hf
      cases hf
      refine ⟨p.2, ?_, hd, rfl⟩
      rw [h2 p hp]
      have : (p.1, p.2) ∈ s.services := by
        cases p
        exact hp
      exact getA_of_mem_nodup _ _ _ h1 this
    · rw [if_neg hd] at hf
      simp at hf
  · rintro ⟨rec, hget, hd, rfl⟩
    refine ⟨(n, rec), getA_mem _ _ _ hget, ?_⟩
    rw [if_pos hd]
    rw [h2 (n, rec) (getA_mem _ _ _ hget)]

theorem disposeLog_names_sublist (l : List (String × ServiceDefinition))
    (hk : ∀ p ∈ l, p.2.tag.name = p.1) :
    ((l.filterMap fun p =>
      if p.2.dispose then some (p.2.tag.name, p.2.inst) else none).map
        fun q => q.1).Sublist (keysA l) := by
  induction l with
  | nil => simp [keysA]
  | cons p t ih =>
    rw [List.filterMap_cons]
    by_cases hd : p.2.dispose
    · rw [if_pos hd]
      simp only [List.map_cons, keysA]
      rw [hk p (List.mem_cons_self _ _)]
      exact List.Sublist.cons₂ _ (ih fun q hq => hk q (List.mem_cons_of_mem _ hq))
    · rw [if_neg hd]
      simp only [keysA, List.map_cons]
      exact List.Sublist.cons _ (ih fun q hq => hk q (List.mem_cons_of_mem _ hq))

/-- C7 as frozen is false: a transient service built twice overwrites its
earlier record in the name-keyed disposal map, so after `dispose` the hook
has run only for the most recent instance; the first instance, though
built via `get` with a hook registered, is never passed to the hook. -/
theorem C7_counterexample :
    createContainer trDispTree = .ok (buildGraph trDispTree) ∧
      (getService (buildGraph trDispTree) ⟨"T"⟩ initState).1 = .ok (.obj 0) ∧
      (getService (buildGraph trDispTree) ⟨"T"⟩
        (getService (buildGraph trDispTree) ⟨"T"⟩ initState).2).1 = .ok (.obj 1) ∧
      (disposeContainer (getService (buildGraph trDispTree) ⟨"T"⟩
        (getService (buildGraph trDispTree) ⟨"T"⟩ initState).2).2).1 =
        [("T", .obj 1)] ∧
      ("T", Value.obj 0) ∉ (disposeContainer (getService (buildGraph trDispTree) ⟨"T"⟩
        (getService (buildGraph trDispTree) ⟨"T"⟩ initState).2).2).1 := by
  decide

/-- C7 (amended): after `dispose()` on a container driven by any sequence
of `get` calls, the hook-invocation list contains each service name at most
once; it contains `(n, v)` exactly when the current (most recently built)
record for `n` has a dispose hook and holds instance `v` — earlier
transient instances for the same name are overwritten in the name-keyed
log and their hooks are never invoked; hooks only fire for names actually
built; and both the service map and the singleton memo are cleared. -/
theorem C7_dispose_last_instance_only (g : Graph) (ts : List Tag) :
    (((disposeContainer (runGets g initState ts)).1.map fun q => q.1).Nodup) ∧
    (∀ n v, (n, v) ∈ (disposeContainer (runGets g initState ts)).1 ↔
      ∃ rec, getA (runGets g initState ts).services n = some rec ∧
        rec.dispose = true ∧ rec.inst = v) ∧
    (∀ n v, (n, v) ∈ (disposeContainer (runGets g initState ts)).1 →
      ∃ e ∈ (runGets g initState ts).buildLog, e.name = n) ∧
    (disposeContainer (runGets g initState ts)).2.services = [] ∧
    (disposeContainer (runGets g initState ts)).2.singletons = [] := by
  have hS := runGets_StInv g ts initState (initState_StInv g)
  refine ⟨?_, ?_, ?_, rfl, rfl⟩
  · exact (disposeLog_names_sublist _ hS.record_key).nodup hS.services_nodup
  · intro n v
    exact mem_disposeLog _ hS.services_nodup hS.record_key n v
  · intro n v hmem
    obtain ⟨rec, hget, hd, -⟩ :=
      (mem_disposeLog _ hS.services_nodup hS.record_key n v).mp hmem
    exact hS.dispose_built (n, rec) (getA_mem _ _ _ hget) hd

/-! ## Allocation-id freshness across a container's history -/

/-- All recorded build ids are below the allocation counter. -/
def IdsBelow (s : RState) : Prop := ∀ e ∈ s.buildLog, e.id < s.counter

theorem idsBelow_getService (g : Graph) (tag : Tag) (s : RState)
    (h : IdsBelow s) : IdsBelow (getService g tag s).2 := by
  have hcs : IdsBelow (createService g (csFuel g) tag s).2 := by
    obtain ⟨hc, ⟨Δ, hl, he⟩, -⟩ := createService_rel g (csFuel g) tag s
    intro e hmem
    rw [hl] at hmem
    rcases List.mem_append.mp hmem with hold | hnew
    · exact Nat.lt_of_lt_of_le (h e hold) hc
    · exact (he e hnew).2.2
  unfold getService
  split
  · split
    · exact h
    · exact hcs
  · exact hcs

theorem idsBelow_runGets (g : Graph) :
    ∀ ts s, IdsBelow s → IdsBelow (runGets g s ts) := by
  intro ts
  induction ts with
  | nil => exact fun s h => h
  | cons t ts ih => exact fun s h => ih _ (idsBelow_getService g t s h)

/-- C9: after `dispose()` resolves, the service map and singleton memo are
both empty, and a subsequent `get` for a registered grounded factory tag
does not fail: it silently re-runs the factory and returns a freshly
allocated instance distinct from every previously built one. -/
theorem C9_get_after_dispose_rebuilds (t : Layer) (g : Graph) (tag tg : Tag)
    (deps : List Tag) (opts : Option LayerOptions) (ts : List Tag)
    (hok : createContainer t = .ok g)
    (hlay : getA g.layerMap tag.name = some (.factory tg deps opts))
    (hg : GroundedD g tag.name) :
    (disposeContainer (runGets g initState ts)).2.services = [] ∧
    (disposeContainer (runGets g initState ts)).2.singletons = [] ∧
    ∃ c,
      (getService g tag (disposeContainer (runGets g initState ts)).2).1 =
        .ok (.obj c) ∧
      countBuilds tag.name
        (getService g tag (disposeContainer (runGets g initState ts)).2).2.buildLog =
        countBuilds tag.name
          (disposeContainer (runGets g initState ts)).2.buildLog + 1 ∧
      (∀ e ∈ (disposeContainer (runGets g initState ts)).2.buildLog, e.id ≠ c) := by
  obtain ⟨-, hWF, hAc⟩ := createContainer_ok_facts t g hok
  have hserv : (disposeContainer (runGets g initState ts)).2.services = [] := rfl
  have hsing : (disposeContainer (runGets g initState ts)).2.singletons = [] := rfl
  have hget : getService g tag (disposeContainer (runGets g initState ts)).2 =
      createService g (csFuel g) tag (disposeContainer (runGets g initState ts)).2 := by
    unfold getService
    rw [hserv]
    rfl
  obtain ⟨v, hv⟩ := (createService_csFuel g hWF hAc tag
    (disposeContainer (runGets g initState ts)).2).2 hg
  have hpair : createService g (csFuel g) tag
      (disposeContainer (runGets g initState ts)).2 =
      (.ok v, (createService g (csFuel g) tag
        (disposeContainer (runGets g initState ts)).2).2) := by
    rw [← hv]
  have hmemo : getA (disposeContainer (runGets g initState ts)).2.singletons tag.name =
      none := by
    rw [hsing]
    rfl
  obtain ⟨⟨c, hcv, hclo, hchi⟩, hcount⟩ :=
    createService_build_count g hAc (csFuel g) tag
      (disposeContainer (runGets g initState ts)).2 v _ tg deps opts hmemo hlay hpair
  have hids : IdsBelow (disposeContainer (runGets g initState ts)).2 := by
    have hrun : IdsBelow (runGets g initState ts) :=
      idsBelow_runGets g ts initState (by intro e he; simp [initState] at he)
    intro e he
    exact hrun e he
  refine ⟨hserv, hsing, c, ?_, ?_, ?_⟩
  · rw [hget, hpair, hcv]
  · rw [hget]
    exact hcount
  · intro e he hc
    have := hids e he
    omega

/-- Witness for C9 at a concrete singleton factory after one `get` and a
dispose. -/
theorem C9_get_after_dispose_rebuilds_witness :
    (disposeContainer (runGets (buildGraph singFTree) initState [⟨"A"⟩])).2.services = [] ∧
    (disposeContainer (runGets (buildGraph singFTree) initState [⟨"A"⟩])).2.singletons = [] ∧
    ∃ c,
      (getService (buildGraph singFTree) ⟨"A"⟩
        (disposeContainer (runGets (buildGraph singFTree) initState [⟨"A"⟩])).2).1 =
        .ok (.obj c) ∧
      countBuilds "A"
        (getService (buildGraph singFTree) ⟨"A"⟩
          (disposeContainer (runGets (buildGraph singFTree) initState [⟨"A"⟩])).2).2.buildLog =
        countBuilds "A"
          (disposeContainer (runGets (buildGraph singFTree) initState [⟨"A"⟩])).2.buildLog + 1 ∧
      (∀ e ∈ (disposeContainer (runGets (buildGraph singFTree) initState [⟨"A"⟩])).2.buildLog,
        e.id ≠ c) :=
  C9_get_after_dispose_rebuilds singFTree (buildGraph singFTree) ⟨"A"⟩ ⟨"A"⟩ [] none
    [⟨"A"⟩] (by decide) (by decide)
    (grounded_of_closed (buildGraph singFTree) "A" (by decide) (by decide))

/-! ## Shared singleton dependencies -/

theorem createService_memo_hit (g : Graph) (tag : Tag) (s : RState) (w : Value)
    (hmemo : getA s.singletons tag.name = some w) :
    createService g (csFuel g) tag s = (.ok w, s) := by
  have h2 : csFuel g = ((keysA g.nodes).length + 1) + 1 := rfl
  rw [h2]
  simp only [createService]
  rw [hmemo]

theorem getService_factory_built (g : Graph) (hWF : GraphWF g) (hAc : AcyclicD g)
    (tag tg : Tag) (deps : List Tag) (opts : Option LayerOptions) (s : RState)
    (hS : StInv g s) (hM : MemoInv g s)
    (hlay : getA g.layerMap tag.name = some (.factory tg deps opts))
    (hg : GroundedD g tag.name) :
    ∃ e ∈ (getService g tag s).2.buildLog, e.name = tag.name := by
  have hcs : ∃ e ∈ (createService g (csFuel g) tag s).2.buildLog, e.name = tag.name := by
    cases hmemo : getA s.singletons tag.name with
    | some w =>
      rw [createService_memo_hit g tag s w hmemo]
      dsimp only
      have hvs := hS.singletons_scope tag.name (by simp [hmemo])
      rcases hvs with ⟨tg', v', hlay'⟩ | hsf
      · rw [hlay] at hlay'
        simp at hlay'
      · obtain ⟨hle, hiff⟩ := hM.builds tag.name hsf
        have hone : countBuilds tag.name s.buildLog = 1 := hiff.mpr (by simp [hmemo])
        exact countBuilds_pos _ _ (by omega)
    | none =>
      obtain ⟨v, hv⟩ := (createService_csFuel g hWF hAc tag s).2 hg
      have hpair : createService g (csFuel g) tag s =
          (.ok v, (createService g (csFuel g) tag s).2) := by
        rw [← hv]
      obtain ⟨-, hcount⟩ := createService_build_count g hAc (csFuel g) tag s v _
        tg deps opts hmemo hlay hpair
      exact countBuilds_pos _ _ (by omega)
  unfold getService
  split
  · rename_i rec hrec
    split
    · exact hS.factory_built (tag.name, rec) (getA_mem _ _ _ hrec) ⟨tg, deps, opts, hlay⟩
    · exact hcs
  · exact hcs

/-- C8: if X and Y are factories each declaring a dependency on the
singleton-scoped factory Z, then after `get(X)` followed by `get(Y)` on a
fresh container, a single Z instance is memoized; every recorded build of X
and of Y received exactly that instance at Z's argument position; both X
and Y were actually built; and Z's factory executed exactly once across
both calls. -/
theorem C8_shared_singleton_dependency (t : Layer) (g : Graph)
    (X Y Z tgx tgy tgz : Tag)
    (depsX depsY depsZ : List Tag) (optsX optsY optsZ : Option LayerOptions)
    (iX iY : Nat)
    (hok : createContainer t = .ok g)
    (hlayX : getA g.layerMap X.name = some (.factory tgx depsX optsX))
    (hlayY : getA g.layerMap Y.name = some (.factory tgy depsY optsY))
    (hlayZ : getA g.layerMap Z.name = some (.factory tgz depsZ optsZ))
    (hscopeZ : effScope optsZ = .singleton)
    (hdX : depsX.get? iX = some Z)
    (hdY : depsY.get? iY = some Z)
    (hgX : GroundedD g X.name) (hgY : GroundedD g Y.name) :
    ∃ vZ,
      getA (getService g Y (getService g X initState).2).2.singletons Z.name =
        some vZ ∧
      (∀ e ∈ (getService g Y (getService g X initState).2).2.buildLog,
        e.name = X.name → e.args.get? iX = some vZ) ∧
      (∀ e ∈ (getService g Y (getService g X initState).2).2.buildLog,
        e.name = Y.name → e.args.get? iY = some vZ) ∧
      (∃ e ∈ (getService g Y (getService g X initState).2).2.buildLog,
        e.name = X.name) ∧
      (∃ e ∈ (getService g Y (getService g X initState).2).2.buildLog,
        e.name = Y.name) ∧
      countBuilds Z.name
        (getService g Y (getService g X initState).2).2.buildLog = 1 := by
  obtain ⟨-, hWF, hAc⟩ := createContainer_ok_facts t g hok
  have hS1 : StInv g (getService g X initState).2 :=
    getService_StInv g X initState (initState_StInv g)
  have hM1 : MemoInv g (getService g X initState).2 :=
    getService_MemoInv g hAc X initState (initState_MemoInv g)
  have hS2 : StInv g (getService g Y (getService g X initState).2).2 :=
    getService_StInv g Y _ hS1
  have hM2 : MemoInv g (getService g Y (getService g X initState).2).2 :=
    getService_MemoInv g hAc Y _ hM1
  have hSFacZ : SFac g Z.name := ⟨tgz, depsZ, optsZ, hlayZ, hscopeZ⟩
  have hVoSZ : ValueOrSFac g Z.name := Or.inr hSFacZ
  obtain ⟨eX, heX, hnX⟩ := getService_factory_built g hWF hAc X tgx depsX optsX
    initState (initState_StInv g) (initState_MemoInv g) hlayX hgX
  have heX2 : eX ∈ (getService g Y (getService g X initState).2).2.buildLog := by
    obtain ⟨Δ, hl⟩ := getService_log_mono g Y (getService g X initState).2
    rw [hl]
    exact List.mem_append_left _ heX
  obtain ⟨eY, heY, hnY⟩ := getService_factory_built g hWF hAc Y tgy depsY optsY
    (getService g X initState).2 hS1 hM1 hlayY hgY
  obtain ⟨vZ, hargsX, hsingZ⟩ := hM2.events eX heX2 tgx depsX optsX
    (by rw [hnX]; exact hlayX) iX Z hdX hVoSZ
  refine ⟨vZ, hsingZ, ?_, ?_, ⟨eX, heX2, hnX⟩, ⟨eY, heY, hnY⟩, ?_⟩
  · intro e he hname
    obtain ⟨w, hw, hsw⟩ := hM2.events e he tgx depsX optsX
      (by rw [hname]; exact hlayX) iX Z hdX hVoSZ
    rw [hsingZ] at hsw
    cases hsw
    exact hw
  · intro e he hname
    obtain ⟨w, hw, hsw⟩ := hM2.events e he tgy depsY optsY
      (by rw [hname]; exact hlayY) iY Z hdY hVoSZ
    rw [hsingZ] at hsw
    cases hsw
    exact hw
  · obtain ⟨hle, hiff⟩ := hM2.builds Z.name hSFacZ
    exact hiff.mpr (by simp [hsingZ])

/-- Witness for C8 at a concrete pair of factories sharing a singleton
dependency. -/
theorem C8_shared_singleton_dependency_witness :
    ∃ vZ,
      getA (getService (buildGraph sharedTree) ⟨"Y"⟩
        (getService (buildGraph sharedTree) ⟨"X"⟩ initState).2).2.singletons "Z" =
        some vZ ∧
      (∀ e ∈ (getService (buildGraph sharedTree) ⟨"Y"⟩
          (getService (buildGraph sharedTree) ⟨"X"⟩ initState).2).2.buildLog,
        e.name = "X" → e.args.get? 0 = some vZ) ∧
      (∀ e ∈ (getService (buildGraph sharedTree) ⟨"Y"⟩
          (getService (buildGraph sharedTree) ⟨"X"⟩ initState).2).2.buildLog,
        e.name = "Y" → e.args.get? 0 = some vZ) ∧
      (∃ e ∈ (getService (buildGraph sharedTree) ⟨"Y"⟩
          (getService (buildGraph sharedTree) ⟨"X"⟩ initState).2).2.buildLog,
        e.name = "X") ∧
      (∃ e ∈ (getService (buildGraph sharedTree) ⟨"Y"⟩
          (getService (buildGraph sharedTree) ⟨"X"⟩ initState).2).2.buildLog,
        e.name = "Y") ∧
      countBuilds "Z"
        ((getService (buildGraph sharedTree) ⟨"Y"⟩
          (getService (buildGraph sharedTree) ⟨"X"⟩ initState).2).2.buildLog) = 1 :=
  C8_shared_singleton_dependency sharedTree (buildGraph sharedTree)
    ⟨"X"⟩ ⟨"Y"⟩ ⟨"Z"⟩ ⟨"X"⟩ ⟨"Y"⟩ ⟨"Z"⟩
    [⟨"Z"⟩] [⟨"Z"⟩] [] none none none 0 0
    (by decide) (by decide) (by decide) (by decide) (by decide)
    (by decide) (by decide)
    (grounded_of_closed (buildGraph sharedTree) "X" (by decide) (by decide))
    (grounded_of_closed (buildGraph sharedTree) "Y" (by decide) (by decide))

end Unlayer
